import Mathlib

/-! # hashfinder: seeded generation of curve coefficients

A shallow embedding of `pkg/generate/generate.go` (the function `PCurve`, the A.3.3 procedure
of ANSI X9.62) and of `cmd/seedsearch/main.go` (the seed arithmetic `addToSeed` and the loop
`doSearch`, whose printed rows are the observable result), together with the functions of the
Go standard library they call (`crypto/sha1`, `math/big`).

Conventions: a Go `[]byte` is a `List Nat` of values below 256; a `*big.Int` that is never
negative is a `Nat`, a signed one an `Int`; a Go `int` is an `Int` in the 64-bit range: the
bit counts of `PCurve` stay far inside it, and the loop of `doSearch`, whose variable can reach
the ends of the range, wraps around explicitly (`wrapInt`).  A run-time panic and a loop that
never exits are explicit outcomes.  The modulus `p` ranges over the non-negative integers,
which is what `SetBytes` yields in `decodeHexBig` and in the tests.
-/

/-! ## crypto/sha1 -/

namespace Sha1

/-- Rotate a 32-bit word left by `n` bits. -/
def rotl32 (x n : Nat) : Nat := ((x <<< n) ||| (x >>> (32 - n))) % 2 ^ 32

/-- The `k` low-order bytes of `n`, most significant first. -/
def beBytes : Nat → Nat → List Nat
  | 0, _ => []
  | k + 1, n => (n >>> (8 * k)) % 256 :: beBytes k n

/-- Big-endian value of a byte string. -/
def beNat (bs : List Nat) : Nat := bs.foldl (fun acc b => acc * 256 + b) 0

/-- Message padding: a `0x80` byte, zero bytes up to 56 modulo 64, then the length in bits as
a 64-bit big-endian integer. -/
def pad (msg : List Nat) : List Nat :=
  msg ++ 0x80 :: (List.replicate ((119 - msg.length % 64) % 64) 0
    ++ beBytes 8 (msg.length * 8 % 2 ^ 64))

/-- The first `k` big-endian 32-bit words of a byte string. -/
def words : Nat → List Nat → List Nat
  | 0, _ => []
  | k + 1, bs => beNat (bs.take 4) :: words k (bs.drop 4)

/-- The five 32-bit chaining words. -/
structure State where
  a : Nat
  b : Nat
  c : Nat
  d : Nat
  e : Nat
deriving DecidableEq, Repr

/-- Round function and round constant of round `t`. -/
def fk (t b c d : Nat) : Nat × Nat :=
  if t < 20 then ((b &&& c) ||| ((b ^^^ 0xFFFFFFFF) &&& d), 0x5A827999)
  else if t < 40 then (b ^^^ c ^^^ d, 0x6ED9EBA1)
  else if t < 60 then ((b &&& c) ||| (b &&& d) ||| (c &&& d), 0x8F1BBCDC)
  else (b ^^^ c ^^^ d, 0xCA62C1D6)

/-- One of the eighty rounds. -/
def round (t : Nat) (s : State) (w : Nat) : State :=
  let q := fk t s.b s.c s.d
  ⟨(rotl32 s.a 5 + q.1 + s.e + w + q.2) % 2 ^ 32, s.a, rotl32 s.b 30, s.c, s.d⟩

/-- Next word of the message schedule from the sixteen previous ones. -/
def nextW (w : List Nat) : Nat :=
  rotl32 (w.getD 13 0 ^^^ w.getD 8 0 ^^^ w.getD 2 0 ^^^ w.getD 0 0) 1

/-- Run `k` rounds from round `t` on; `w` is the sliding window of the schedule. -/
def rounds : Nat → Nat → State → List Nat → State
  | 0, _, s, _ => s
  | k + 1, t, s, w => rounds k (t + 1) (round t s (w.getD 0 0)) (w.drop 1 ++ [nextW w])

/-- Compression of one 64-byte block. -/
def block (h : State) (bs : List Nat) : State :=
  let s := rounds 80 0 h (words 16 bs)
  ⟨(h.a + s.a) % 2 ^ 32, (h.b + s.b) % 2 ^ 32, (h.c + s.c) % 2 ^ 32, (h.d + s.d) % 2 ^ 32,
    (h.e + s.e) % 2 ^ 32⟩

/-- Compression of `k` consecutive blocks. -/
def blocks : Nat → State → List Nat → State
  | 0, h, _ => h
  | k + 1, h, bs => blocks k (block h (bs.take 64)) (bs.drop 64)

/-- Initial chaining value. -/
def init : State := ⟨0x67452301, 0xEFCDAB89, 0x98BADCFE, 0x10325476, 0xC3D2E1F0⟩

/-- The 20-byte digest `sha1.Sum(msg)`. -/
def Sum (msg : List Nat) : List Nat :=
  let padded := pad msg
  let h := blocks (padded.length / 64) init padded
  beBytes 4 h.a ++ beBytes 4 h.b ++ beBytes 4 h.c ++ beBytes 4 h.d ++ beBytes 4 h.e

end Sha1

/-! ## math/big -/

namespace Big

/-- Length of `n` in bits; the first argument bounds the recursion. -/
def BitLenAux : Nat → Nat → Nat
  | 0, _ => 0
  | f + 1, n => if n = 0 then 0 else BitLenAux f (n / 2) + 1

/-- The value of `x.BitLen()` for `|x| = n`: the length of `n` in bits, 0 for 0. -/
def BitLen (n : Nat) : Nat := BitLenAux n n

/-- The value set by `SetBytes(bs)`: `bs` read as a big-endian unsigned integer. -/
def SetBytes (bs : List Nat) : Nat := bs.foldl (fun acc b => acc * 256 + b) 0

/-- The result of `x.Bytes()` for `|x| = n`: the minimal big-endian encoding, empty for 0. -/
def Bytes (n : Nat) : List Nat := Sha1.beBytes ((BitLen n + 7) / 8) n

/-- Number of trailing zero bits of `n`; the first argument bounds the recursion. -/
def trailingZeroBitsAux : Nat → Nat → Nat
  | 0, _ => 0
  | f + 1, n => if n % 2 = 1 then 0 else trailingZeroBitsAux f (n / 2) + 1

/-- The value of `nat.trailingZeroBits`: 0 for 0. -/
def trailingZeroBits (n : Nat) : Nat := if n = 0 then 0 else trailingZeroBitsAux n n

/-- Binary exponentiation, `acc * b ^ y mod m`; the first argument bounds the recursion. -/
def expLoop : Nat → Nat → Nat → Nat → Nat → Nat
  | 0, acc, _, _, _ => acc
  | f + 1, acc, b, y, m =>
    if y = 0 then acc
    else expLoop f (if y % 2 = 1 then acc * b % m else acc) (b * b % m) (y / 2) m

/-- The value of `nat.expNN(x, y, m)`: `x ^ y mod m`. -/
def expNN (x y m : Nat) : Nat := expLoop (BitLen y) (1 % m) (x % m) y m

/-- The extended Euclidean algorithm on the remainders `r0`, `r1` with their cofactors `s0`,
`s1`; returns the last non-zero remainder and its cofactor.  The first argument bounds the
recursion. -/
def xgcd : Nat → Nat → Int → Nat → Int → Nat × Int
  | 0, r0, s0, _, _ => (r0, s0)
  | f + 1, r0, s0, r1, s1 =>
    if r1 = 0 then (r0, s0) else xgcd f r1 s1 (r0 % r1) (s0 - ((r0 / r1 : Nat) : Int) * s1)

/-- The result of `ModInverse(g, n)` for `g ≥ 0` and `n > 0`: `none` is Go's nil (`g` and `n`
are not relatively prime), otherwise the inverse of `g` in the range `0 ≤ z < n`. -/
def ModInverse (g n : Nat) : Option Nat :=
  let dx := xgcd (n + 1) g 1 n 0
  if dx.1 ≠ 1 then none else some (dx.2 % (n : Int)).toNat

/-- The result of `Exp(x, y, m)`: `none` is Go's nil, which is returned only for a negative
exponent whose base has no inverse; a zero modulus means no reduction.  With a modulus, a
negative base and an odd exponent the non-zero power of the absolute value (of the inverse,
for a negative exponent) is subtracted from `m`. -/
def Exp (x y : Int) (m : Nat) : Option Int :=
  if y < 0 then
    if m = 0 then some 1
    else
      match ModInverse (if x < 0 then (x % (m : Int)).toNat else x.toNat) m with
      | none => none
      | some inv =>
        let z := expNN inv y.natAbs m
        if z ≠ 0 ∧ x < 0 ∧ y.natAbs % 2 = 1 then some ((m : Int) - z) else some z
  else if m = 0 then some (x ^ y.toNat)
  else
    let z := expNN x.natAbs y.toNat m
    if z ≠ 0 ∧ x < 0 ∧ y.toNat % 2 = 1 then some ((m : Int) - z) else some z

/-- The result of `Mod(x, m)` for `m ≠ 0`: the Euclidean remainder, never nil. -/
def Mod (x : Int) (m : Nat) : Option Int := some (x % (m : Int))

/-- The value of `x.IsInt64()`. -/
def IsInt64 (x : Int) : Bool := decide (-(2 : Int) ^ 63 ≤ x ∧ x < 2 ^ 63)

/-- The value of `x.Int64()`: the low 64 bits of `x` as a signed integer. -/
def Int64 (x : Int) : Int := (x + 2 ^ 63) % 2 ^ 64 - 2 ^ 63

/-- The loop of `Jacobi` on `a` over `b`, with the sign `j` collected so far; the first
argument bounds the recursion. -/
def jacobiLoop : Nat → Nat → Nat → Int → Int
  | 0, _, _, _ => 0
  | f + 1, a, b, j =>
    if b = 1 then j
    else if a = 0 then 0
    else
      let a1 := a % b
      if a1 = 0 then 0
      else
        let s := trailingZeroBits a1
        let j1 := if s % 2 = 1 ∧ (b % 8 = 3 ∨ b % 8 = 5) then -j else j
        let c := a1 >>> s
        let j2 := if b % 4 = 3 ∧ c % 4 = 3 then -j1 else j1
        jacobiLoop f b c j2

/-- The result of `Jacobi(x, y)` for `x, y ≥ 0`: `none` is the panic on an even `y`. -/
def Jacobi (x y : Nat) : Option Int :=
  if y % 2 = 0 then none else some (jacobiLoop y x y 1)

/-- Outcome of a call of `ModSqrt`. -/
inductive SqrtOutcome where
  /-- A square root was stored and returned. -/
  | root (z : Nat)
  /-- The nil result: the argument is not a square. -/
  | null
  /-- A run-time panic. -/
  | panic
  /-- A loop that never exits. -/
  | diverge
deriving DecidableEq, Repr

/-- The value of `modSqrt3Mod4Prime(x, p)`. -/
def modSqrt3Mod4Prime (x p : Nat) : Nat := expNN x ((p + 1) >>> 2) p

/-- The value of `modSqrt5Mod8Prime(x, p)`. -/
def modSqrt5Mod8Prime (x p : Nat) : Nat :=
  let e := p >>> 3
  let tx := x <<< 1
  let alpha := expNN tx e p
  let beta := (((alpha * alpha % p * tx % p : Nat) : Int) - 1) * (x : Int) % (p : Int)
  (beta * (alpha : Int) % (p : Int)).toNat

/-- The search `for Jacobi(&n, p) != -1 { n.Add(&n, intOne) }` from `n` on; `none` when it
never exits.  The symbol has period `p` in `n`, so `p` steps decide. -/
def findNonSquare : Nat → Nat → Nat → Option Nat
  | 0, _, _ => none
  | f + 1, n, p => if Jacobi n p = some (-1) then some n else findNonSquare f (n + 1) p

/-- The loop `for t.Cmp(intOne) != 0 { t.Mul(&t, &t).Mod(&t, p); m++ }`; `none` when it never
exits.  The values of `t` repeat after at most `p` steps, so `p` steps decide. -/
def orderLoop : Nat → Nat → Nat → Nat → Option Nat
  | 0, _, _, _ => none
  | f + 1, t, m, p => if t = 1 then some m else orderLoop f (t * t % p) (m + 1) p

/-- The main loop of `modSqrtTonelliShanks`; `r - m - 1` is an unsigned difference that
`SetBit` receives as an `int`, and panics on when negative.  The exponent `r` decreases in
every round, so the first argument, which starts above it, never runs out. -/
def tonelliLoop : Nat → Nat → Nat → Nat → Nat → Nat → SqrtOutcome
  | 0, _, _, _, _, _ => .diverge
  | f + 1, y, b, g, r, p =>
    match orderLoop p b 0 p with
    | none => .diverge
    | some m =>
      if m = 0 then .root y
      else if r < m + 1 then .panic
      else
        let t := expNN g (2 ^ (r - m - 1)) p
        let g1 := t * t % p
        tonelliLoop f (y * t % p) (b * g1 % p) g1 m p

/-- The outcome of `modSqrtTonelliShanks(x, p)`. -/
def modSqrtTonelliShanks (x p : Nat) : SqrtOutcome :=
  let e := trailingZeroBits (p - 1)
  let s := (p - 1) >>> e
  match findNonSquare p 2 p with
  | none => .diverge
  | some n =>
    tonelliLoop (e + 1) (expNN x ((s + 1) >>> 1) p) (expNN x s p) (expNN n s p) e p

/-- The outcome of `ModSqrt(x, p)` for `x ≥ 0` and `p > 0`. -/
def ModSqrt (x p : Nat) : SqrtOutcome :=
  match Jacobi x p with
  | none => .panic
  | some j =>
    if j = -1 then .null
    else if j = 0 then .root 0
    else
      let x1 := if p ≤ x then x % p else x
      if p % 4 = 3 then .root (modSqrt3Mod4Prime x1 p)
      else if p % 8 = 5 then .root (modSqrt5Mod8Prime x1 p)
      else modSqrtTonelliShanks x1 p

end Big

/-! ## pkg/generate -/

namespace Generate

/-- The `Result` struct. -/
structure Result where
  R : Int
  B1 : Int
  B2 : Int
deriving DecidableEq, Repr

/-- The message of the sentinel `ErrBadSeed`. -/
def ErrBadSeed : String := "bad seed"

/-- The five `fmt.Errorf("%w: ...", ErrBadSeed)` returns of `PCurve`, in source order; each
wraps `ErrBadSeed`. -/
inductive BadSeed where
  | a3
  | rinv
  | b2
  | b
  | singular
deriving DecidableEq, Repr

/-- The text of each error. -/
def BadSeed.message : BadSeed → String
  | .a3 => ErrBadSeed ++ ": error computing a^3"
  | .rinv => ErrBadSeed ++ ": error computing r-inverse"
  | .b2 => ErrBadSeed ++ ": error computing b^2"
  | .b => ErrBadSeed ++ ": error computing b"
  | .singular => ErrBadSeed ++ ": 4a^3 + 27b^2 ≡ 0 (mod p)"

/-- Outcome of a call of `PCurve`. -/
inductive Outcome where
  /-- The return `(&Result{...}, nil)`. -/
  | ok (res : Result)
  /-- The return `(nil, err)`. -/
  | err (e : BadSeed)
  /-- A run-time panic. -/
  | panic
  /-- A loop that never exits. -/
  | diverge
deriving DecidableEq, Repr

/-- The value `sCount := (p.BitLen() - 1) / 160`; Go's `/` truncates towards zero. -/
def sCount (p : Nat) : Int := Int.tdiv ((Big.BitLen p : Int) - 1) 160

/-- The value `hBits := p.BitLen() - 160*sCount`. -/
def hBits (p : Nat) : Int := (Big.BitLen p : Int) - 160 * sCount p

/-- The value `hBytes := (hBits + 7) / 8`. -/
def hBytes (p : Nat) : Int := Int.tdiv (hBits p + 7) 8

/-- The slice expression `buf[lo:]`; `none` is the panic on a bound out of range. -/
def sliceFrom (buf : List Nat) (lo : Int) : Option (List Nat) :=
  if 0 ≤ lo ∧ lo ≤ (buf.length : Int) then some (buf.drop lo.toNat) else none

/-- The statement `w0[0] &= ^(1 << (7 - i))` on a byte slice; `none` is a panic (index out of
range, negative shift count). -/
def maskStep (w : List Nat) (i : Nat) : Option (List Nat) :=
  match w with
  | [] => none
  | b :: rest =>
    if 7 < i then none else some ((b &&& (0xFF ^^^ ((1 <<< (7 - i)) % 256))) :: rest)

/-- The loop `for i := 0; i <= bound; i++ { w0[0] &= ^(1 << (7 - i)) }`. -/
def maskLoop (w : List Nat) (bound : Int) : Option (List Nat) :=
  (List.range (bound + 1).toNat).foldlM maskStep w

/-- The block `w0` once masked: the last `hBytes` bytes of `sha1.Sum(seed)` with the leading
bits of the first byte cleared; `none` is a panic. -/
def w0 (p : Nat) (seed : List Nat) : Option (List Nat) :=
  match sliceFrom (Sha1.Sum seed) (20 - hBytes p) with
  | none => none
  | some w => maskLoop w (Int.tmod (160 - hBits p) 8)

/-- The digests `w` of the loop `for i := 1; i <= sCount; i++`, in order. -/
def wBlocks (p : Nat) (seed : List Nat) : List (List Nat) :=
  (List.range' 1 (sCount p).toNat).map
    (fun i => Sha1.Sum (Big.Bytes (Big.SetBytes seed + i)))

/-- Every digest `PCurve` computes, in order: `sha1.Sum(seed)` of line 29, then the blocks of
the second loop. -/
def digests (p : Nat) (seed : List Nat) : List (List Nat) :=
  Sha1.Sum seed :: wBlocks p seed

/-- The contents of `rBuf` after both loops; `none` is a panic. -/
def rBuf (p : Nat) (seed : List Nat) : Option (List Nat) :=
  match w0 p seed with
  | none => none
  | some w => some (w ++ (wBlocks p seed).flatten)

/-- The value `r` that `PCurve` expands from the seed (lines 23 to 42); `none` is a panic. -/
def expandR (p : Nat) (seed : List Nat) : Option Nat :=
  match rBuf p seed with
  | none => none
  | some buf => some (Big.SetBytes buf)

/-- The function `PCurve(p, a, seed)`. -/
def PCurve (p : Nat) (a : Int) (seed : List Nat) : Outcome :=
  match expandR p seed with
  | none => .panic
  | some r =>
    match Big.Exp a 3 p with
    | none => .err .a3
    | some a3 =>
      match Big.ModInverse r p with
      | none => .err .rinv
      | some rinv =>
        match Big.Mod (a3 * (rinv : Int)) p with
        | none => .err .b2
        | some b2 =>
          match Big.ModSqrt b2.toNat p with
          | .null => .err .b
          | .panic => .panic
          | .diverge => .diverge
          | .root b =>
            let bneg : Int := (p : Int) - (b : Int)
            let check := (a3 * 4 + b2 * 27) % (p : Int)
            if (Big.IsInt64 check && Big.Int64 check == 0) = true then .err .singular
            else .ok ⟨(r : Int), (b : Int), bneg⟩

/-! ### The vectors of `TestPCurve` -/

/-- The seed of the `NIST P192` case of `TestPCurve`. -/
def seedP192 : List Nat :=
  [0x30, 0x45, 0xAE, 0x6F, 0xC8, 0x42, 0x2F, 0x64, 0xED, 0x57, 0x95,
   0x28, 0xD3, 0x81, 0x20, 0xEA, 0xE1, 0x21, 0x96, 0xD5]

/-- The modulus `p` of the `NIST P192` case. -/
def pP192 : Nat :=
  0xFFFFFFFFFFFFFFFFFFFFFFFFFFFFFFFEFFFFFFFFFFFFFFFF

/-- The coefficient `a` of the `NIST P192` case. -/
def aP192 : Int :=
  0xFFFFFFFFFFFFFFFFFFFFFFFFFFFFFFFEFFFFFFFFFFFFFFFC

/-- The published `r` (`wantResult.R`) of the `NIST P192` case. -/
def rP192 : Int :=
  0x3099D2BBBFCB2538542DCD5FB078B6EF5F3D6FE2C745DE65

/-- The published `b` (`wantResult.B1`) of the `NIST P192` case. -/
def bP192 : Int :=
  0x64210519E59C80E70FA7E9AB72243049FEB8DEECC146B9B1

/-- The seed of the `NIST P224` case of `TestPCurve`. -/
def seedP224 : List Nat :=
  [0xBD, 0x71, 0x34, 0x47, 0x99, 0xD5, 0xC7, 0xFC, 0xDC, 0x45, 0xB5,
   0x9F, 0xA3, 0xB9, 0xAB, 0x8F, 0x6A, 0x94, 0x8B, 0xC5]

/-- The modulus `p` of the `NIST P224` case. -/
def pP224 : Nat :=
  0xFFFFFFFFFFFFFFFFFFFFFFFFFFFFFFFF000000000000000000000001

/-- The coefficient `a` of the `NIST P224` case. -/
def aP224 : Int :=
  0xFFFFFFFFFFFFFFFFFFFFFFFFFFFFFFFEFFFFFFFFFFFFFFFFFFFFFFFE

/-- The published `r` (`wantResult.R`) of the `NIST P224` case. -/
def rP224 : Int :=
  0x5B056C7E11DD68F40469EE7F3C7A7D74F7D121116506D031218291FB

/-- The published `b` (`wantResult.B1`) of the `NIST P224` case. -/
def bP224 : Int :=
  0xB4050A850C04B3ABF54132565044B0B7D7BFD8BA270B39432355FFB4

/-- The seed of the `NIST P256` case of `TestPCurve`. -/
def seedP256 : List Nat :=
  [0xC4, 0x9D, 0x36, 0x08, 0x86, 0xE7, 0x04, 0x93, 0x6A, 0x66, 0x78,
   0xE1, 0x13, 0x9D, 0x26, 0xB7, 0x81, 0x9F, 0x7E, 0x90]

/-- The modulus `p` of the `NIST P256` case. -/
def pP256 : Nat :=
  0xFFFFFFFF00000001000000000000000000000000FFFFFFFFFFFFFFFFFFFFFFFF

/-- The coefficient `a` of the `NIST P256` case. -/
def aP256 : Int :=
  0xFFFFFFFF00000001000000000000000000000000FFFFFFFFFFFFFFFFFFFFFFFC

/-- The published `r` (`wantResult.R`) of the `NIST P256` case. -/
def rP256 : Int :=
  0x7EFBA1662985BE9403CB055C75D4F7E0CE8D84A9C5114ABCAF3177680104FA0D

/-- The published `b` (`wantResult.B1`) of the `NIST P256` case. -/
def bP256 : Int :=
  0x5AC635D8AA3A93E7B3EBBD55769886BC651D06B0CC53B0F63BCE3C3E27D2604B

/-- The seed of the `NIST P384` case of `TestPCurve`. -/
def seedP384 : List Nat :=
  [0xA3, 0x35, 0x92, 0x6A, 0xA3, 0x19, 0xA2, 0x7A, 0x1D, 0x00, 0x89,
   0x6A, 0x67, 0x73, 0xA4, 0x82, 0x7A, 0xCD, 0xAC, 0x73]

/-- The modulus `p` of the `NIST P384` case. -/
def pP384 : Nat :=
  0xFFFFFFFFFFFFFFFFFFFFFFFFFFFFFFFFFFFFFFFFFFFFFFFFFFFFFFFFFFFFFFFEFFFFFFFF0000000000000000FFFFFFFF

/-- The coefficient `a` of the `NIST P384` case. -/
def aP384 : Int :=
  0xFFFFFFFFFFFFFFFFFFFFFFFFFFFFFFFFFFFFFFFFFFFFFFFFFFFFFFFFFFFFFFFEFFFFFFFF0000000000000000FFFFFFFC

/-- The published `r` (`wantResult.R`) of the `NIST P384` case. -/
def rP384 : Int :=
  0x79D1E655F868F02FFF48DCDEE14151DDB80643C1406D0CA10DFE6FC52009540A495E8042EA5F744F6E184667CC722483

/-- The published `b` (`wantResult.B1`) of the `NIST P384` case. -/
def bP384 : Int :=
  0xB3312FA7E23EE7E4988E056BE3F82D19181D9C6EFE8141120314088F5013875AC656398D8A2ED19D2A85C8EDD3EC2AEF

/-- The seed of the `NIST P521` case of `TestPCurve`. -/
def seedP521 : List Nat :=
  [0xD0, 0x9E, 0x88, 0x00, 0x29, 0x1C, 0xB8, 0x53, 0x96, 0xCC, 0x67,
   0x17, 0x39, 0x32, 0x84, 0xAA, 0xA0, 0xDA, 0x64, 0xBA]

/-- The modulus `p` of the `NIST P521` case. -/
def pP521 : Nat :=
  0x01FFFFFFFFFFFFFFFFFFFFFFFFFFFFFFFFFFFFFFFFFFFFFFFFFFFFFFFFFFFFFFFFFFFFFFFFFFFFFFFFFFFFFFFFFFFFFFFFFFFFFFFFFFFFFFFFFFFFFFFFFFFFFFFFFF

/-- The coefficient `a` of the `NIST P521` case. -/
def aP521 : Int :=
  0x01FFFFFFFFFFFFFFFFFFFFFFFFFFFFFFFFFFFFFFFFFFFFFFFFFFFFFFFFFFFFFFFFFFFFFFFFFFFFFFFFFFFFFFFFFFFFFFFFFFFFFFFFFFFFFFFFFFFFFFFFFFFFFFFFFC

/-- The published `r` (`wantResult.R`) of the `NIST P521` case. -/
def rP521 : Int :=
  0x00B48BFA5F420A34949539D2BDFC264EEEEB077688E44FBF0AD8F6D0EDB37BD6B533281000518E19F1B9FFBE0FE9ED8A3C2200B8F875E523868C70C1E5BF55BAD637

/-- The published `b` (`wantResult.B1`) of the `NIST P521` case. -/
def bP521 : Int :=
  0x0051953EB9618E1C9A1F929A21A0B68540EEA2DA725B99B315F3B8B489918EF109E156193951EC7E937B1652C0BD3BB1BF073573DF883D2C34F1EF451FD46B503F00

end Generate

/-! ## cmd/seedsearch -/

namespace Seedsearch

/-- The function `addToSeed(seed, value)`; `Bytes()` encodes the absolute value of the sum. -/
def addToSeed (seed : List Nat) (value : Int) : List Nat :=
  Big.Bytes ((Big.SetBytes seed : Int) + value).natAbs

/-- One completed iteration of the loop of `doSearch`: the offset `i`, the candidate seed that
was passed to `PCurve`, whether the row is highlighted (`i == 0`), and the error printed after
`[BAD]` (`none` for an `[OK]` row). -/
structure Row where
  offset : Int
  seed : List Nat
  highlighted : Bool
  err : Option Generate.BadSeed
deriving DecidableEq, Repr

/-- How a run of `doSearch` ends. -/
inductive Ending where
  /-- The statement `return nil` was reached. -/
  | retNil
  /-- A call of `PCurve` panicked. -/
  | panic
  /-- A call of `PCurve` never returned, or the loop never exits. -/
  | diverge
deriving DecidableEq, Repr

/-- The value of a Go `int` (64 bits, two's complement) after an operation whose exact result
is `x`: arithmetic on `int` wraps around. -/
def wrapInt (x : Int) : Int := (x + 2 ^ 63) % 2 ^ 64 - 2 ^ 63

/-- The loop `for ...; i <= margin; i++ { ... }` of `doSearch`, entered with the value `i` of
its loop variable: the rows printed and how the run ends.  The candidate is computed from
`start` and `i` alone, and `i++` wraps around.  The first argument counts the iterations still
allowed; when it reaches 0 the loop has not exited. -/
def searchLoop (p : Nat) (a : Int) (start : List Nat) (margin : Int) :
    Nat → Int → List Row × Ending
  | 0, _ => ([], .diverge)
  | fuel + 1, i =>
    if i ≤ margin then
      let seed := addToSeed start i
      match Generate.PCurve p a seed with
      | .panic => ([], .panic)
      | .diverge => ([], .diverge)
      | .err e =>
        let t := searchLoop p a start margin fuel (wrapInt (i + 1))
        (⟨i, seed, i == 0, some e⟩ :: t.1, t.2)
      | .ok _ =>
        let t := searchLoop p a start margin fuel (wrapInt (i + 1))
        (⟨i, seed, i == 0, none⟩ :: t.1, t.2)
    else ([], .retNil)

/-- The function `doSearch(p, a, start, margin)`, for `margin` in the range of `int`.  The loop
starts at `-margin` (which wraps around for the least `int`) and is given `2^64` iterations:
the loop variable has `2^64` values, so a loop whose test has held `2^64` times in a row holds
for every value of `i` and never exits. -/
def doSearch (p : Nat) (a : Int) (start : List Nat) (margin : Int) : List Row × Ending :=
  searchLoop p a start margin (2 ^ 64) (wrapInt (-margin))

end Seedsearch

/-! ## Bytes and bit lengths -/

namespace Sha1

theorem beBytes_length (k n : Nat) : (beBytes k n).length = k := by
  induction k with
  | zero => rfl
  | succ k ih => simp [beBytes, ih]

theorem beBytes_lt {k n b : Nat} (h : b ∈ beBytes k n) : b < 256 := by
  induction k with
  | zero => simp [beBytes] at h
  | succ k ih =>
    simp only [beBytes, List.mem_cons] at h
    rcases h with h | h
    · subst h; exact Nat.mod_lt _ (by norm_num)
    · exact ih h

theorem Sum_length (msg : List Nat) : (Sha1.Sum msg).length = 20 := by
  simp [Sha1.Sum, beBytes_length]

theorem Sum_lt {msg : List Nat} {b : Nat} (h : b ∈ Sha1.Sum msg) : b < 256 := by
  simp only [Sha1.Sum, List.mem_append] at h
  rcases h with (((h | h) | h) | h) | h <;> exact beBytes_lt h

end Sha1

namespace Big

theorem foldl_SetBytes (bs : List Nat) (acc : Nat) :
    bs.foldl (fun acc b => acc * 256 + b) acc = acc * 256 ^ bs.length + SetBytes bs := by
  induction bs generalizing acc with
  | nil => simp [SetBytes]
  | cons b bs ih =>
    simp only [List.foldl_cons, List.length_cons, SetBytes]
    rw [ih, ih (0 * 256 + b)]
    ring

theorem SetBytes_nil : SetBytes [] = 0 := rfl

theorem SetBytes_cons (b : Nat) (bs : List Nat) :
    SetBytes (b :: bs) = b * 256 ^ bs.length + SetBytes bs := by
  show (b :: bs).foldl (fun acc b => acc * 256 + b) 0 = _
  rw [List.foldl_cons, foldl_SetBytes]
  simp

theorem SetBytes_append (xs ys : List Nat) :
    SetBytes (xs ++ ys) = SetBytes xs * 256 ^ ys.length + SetBytes ys := by
  show (xs ++ ys).foldl (fun acc b => acc * 256 + b) 0 = _
  rw [List.foldl_append, foldl_SetBytes]
  rfl

theorem SetBytes_lt (bs : List Nat) (h : ∀ b ∈ bs, b < 256) : SetBytes bs < 256 ^ bs.length := by
  induction bs with
  | nil => simp [SetBytes]
  | cons b bs ih =>
    rw [SetBytes_cons, List.length_cons, pow_succ]
    have hb : b < 256 := h b (List.mem_cons_self _ _)
    have hr := ih (fun c hc => h c (List.mem_cons_of_mem _ hc))
    nlinarith

theorem SetBytes_beBytes (k n : Nat) : SetBytes (Sha1.beBytes k n) = n % 256 ^ k := by
  induction k with
  | zero => simp [Sha1.beBytes, SetBytes, Nat.mod_one]
  | succ k ih =>
    rw [Sha1.beBytes, SetBytes_cons, ih, Sha1.beBytes_length, Nat.shiftRight_eq_div_pow]
    have h8 : 2 ^ (8 * k) = 256 ^ k := by rw [pow_mul]; norm_num
    rw [h8, pow_succ, Nat.mod_mul, Nat.add_comm, Nat.mul_comm]

theorem BitLenAux_zero (f : Nat) : BitLenAux f 0 = 0 := by
  cases f <;> simp [BitLenAux]

theorem lt_two_pow_BitLenAux (f n : Nat) (h : n ≤ f) : n < 2 ^ BitLenAux f n := by
  induction f generalizing n with
  | zero => simp [Nat.le_zero.mp h, BitLenAux]
  | succ f ih =>
    by_cases hn : n = 0
    · simp [hn, BitLenAux]
    · simp only [BitLenAux, hn, if_false]
      have := ih (n / 2) (by omega)
      rw [pow_succ]; omega

theorem two_pow_BitLenAux_le (f n : Nat) (h : n ≤ f) (hn : n ≠ 0) :
    2 ^ (BitLenAux f n - 1) ≤ n := by
  induction f generalizing n with
  | zero => omega
  | succ f ih =>
    simp only [BitLenAux, hn, if_false, Nat.add_sub_cancel]
    by_cases h2 : n / 2 = 0
    · rw [h2, BitLenAux_zero]; simp; omega
    · have := ih (n / 2) (by omega) h2
      have hpos : 0 < BitLenAux f (n / 2) := by
        cases f with
        | zero => omega
        | succ f => simp [BitLenAux, h2]
      obtain ⟨k, hk⟩ : ∃ k, BitLenAux f (n / 2) = k + 1 := ⟨_, (Nat.succ_pred_eq_of_pos hpos).symm⟩
      rw [hk] at this ⊢
      simp only [Nat.add_sub_cancel] at this
      rw [pow_succ]; omega

theorem lt_two_pow_BitLen (n : Nat) : n < 2 ^ BitLen n := lt_two_pow_BitLenAux n n le_rfl

theorem two_pow_BitLen_le {n : Nat} (hn : n ≠ 0) : 2 ^ (BitLen n - 1) ≤ n :=
  two_pow_BitLenAux_le n n le_rfl hn

theorem BitLen_zero : BitLen 0 = 0 := rfl

theorem BitLen_pos {n : Nat} (hn : n ≠ 0) : 0 < BitLen n := by
  by_contra h
  have := lt_two_pow_BitLen n
  rw [Nat.eq_zero_of_not_pos h] at this
  omega

theorem BitLen_le_iff (n k : Nat) : BitLen n ≤ k ↔ n < 2 ^ k := by
  constructor
  · intro h
    exact lt_of_lt_of_le (lt_two_pow_BitLen n) (Nat.pow_le_pow_right (by norm_num) h)
  · intro h
    by_contra hc
    have hn : n ≠ 0 := by
      rintro rfl
      simp [BitLen_zero] at hc
    have h1 := two_pow_BitLen_le hn
    have h2 : 2 ^ k ≤ 2 ^ (BitLen n - 1) := Nat.pow_le_pow_right (by norm_num) (by omega)
    omega

theorem BitLen_eq_zero_iff (n : Nat) : BitLen n = 0 ↔ n = 0 := by
  constructor
  · intro h
    have := lt_two_pow_BitLen n
    rw [h] at this
    omega
  · rintro rfl; rfl

theorem SetBytes_Bytes (n : Nat) : SetBytes (Bytes n) = n := by
  rw [Bytes, SetBytes_beBytes]
  apply Nat.mod_eq_of_lt
  have h1 := lt_two_pow_BitLen n
  have h2 : (256 : Nat) ^ ((BitLen n + 7) / 8) = 2 ^ (8 * ((BitLen n + 7) / 8)) := by
    rw [pow_mul]; norm_num
  rw [h2]
  exact lt_of_lt_of_le h1 (Nat.pow_le_pow_right (by norm_num) (by omega))

end Big

/-! ## The expansion of the seed -/

namespace Generate
open Big

theorem sCount_eq {p : Nat} (h : 1 ≤ BitLen p) : sCount p = (((BitLen p - 1) / 160 : Nat) : Int) := by
  unfold sCount
  rw [Int.tdiv_eq_ediv (by omega) (by norm_num)]
  omega

theorem hBits_eq {p : Nat} (h : 1 ≤ BitLen p) :
    hBits p = ((BitLen p - 160 * ((BitLen p - 1) / 160) : Nat) : Int) := by
  unfold hBits
  rw [sCount_eq h]
  omega

theorem hBits_range {p : Nat} (h : 1 ≤ BitLen p) : 1 ≤ hBits p ∧ hBits p ≤ 160 := by
  rw [hBits_eq h]
  omega

theorem hBytes_eq {p : Nat} (h : 1 ≤ BitLen p) : hBytes p = (hBits p + 7) / 8 := by
  unfold hBytes
  have := hBits_range h
  rw [Int.tdiv_eq_ediv (by omega) (by norm_num)]

theorem hBytes_range {p : Nat} (h : 1 ≤ BitLen p) : 1 ≤ hBytes p ∧ hBytes p ≤ 20 := by
  have := hBits_range h
  rw [hBytes_eq h]
  omega

theorem maskBound_eq {p : Nat} (h : 1 ≤ BitLen p) :
    Int.tmod (160 - hBits p) 8 = 8 * hBytes p - hBits p := by
  have := hBits_range h
  rw [Int.tmod_eq_emod (by omega) (by norm_num), hBytes_eq h]
  omega

theorem maskBound_range {p : Nat} (h : 1 ≤ BitLen p) :
    0 ≤ Int.tmod (160 - hBits p) 8 ∧ Int.tmod (160 - hBits p) 8 ≤ 7 := by
  have := hBits_range h
  rw [Int.tmod_eq_emod (by omega) (by norm_num)]
  omega

theorem land_const (b c j : Nat) (h : c = 2 ^ j - 1) : b &&& c = b % 2 ^ j := by
  subst h; exact Nat.and_pow_two_sub_one_eq_mod b j

theorem maskLoop_cons (b : Nat) (rest : List Nat) (k : Nat) (hk : k ≤ 7) :
    maskLoop (b :: rest) (k : Int) = some ((b % 2 ^ (7 - k)) :: rest) := by
  have hr : ((k : Int) + 1).toNat = k + 1 := by omega
  unfold maskLoop
  rw [hr]
  interval_cases k <;>
    simp only [List.range_succ, List.range_zero, List.nil_append, List.cons_append,
      List.foldlM_cons, List.foldlM_nil, maskStep, Option.bind_eq_bind, Option.some_bind,
      Option.pure_def, Nat.land_assoc, Option.some.injEq, List.cons.injEq, and_true] <;>
    simp only [show ¬ (7 < 0) by decide, show ¬ (7 < 1) by decide, show ¬ (7 < 2) by decide,
      show ¬ (7 < 3) by decide, show ¬ (7 < 4) by decide, show ¬ (7 < 5) by decide,
      show ¬ (7 < 6) by decide, show ¬ (7 < 7) by decide, if_false, Option.some_bind,
      Nat.land_assoc, Option.some.injEq, List.cons.injEq, and_true]
  · exact land_const b _ 7 (by decide)
  · exact land_const b _ 6 (by decide)
  · exact land_const b _ 5 (by decide)
  · exact land_const b _ 4 (by decide)
  · exact land_const b _ 3 (by decide)
  · exact land_const b _ 2 (by decide)
  · exact land_const b _ 1 (by decide)
  · exact land_const b _ 0 (by decide)


theorem w0_spec {p : Nat} (h : 1 ≤ BitLen p) (seed : List Nat) :
    ∃ b rest, (Sha1.Sum seed).drop (20 - hBytes p).toNat = b :: rest ∧
      rest.length + 1 = (hBytes p).toNat ∧
      w0 p seed = some ((b % 2 ^ (7 - (8 * hBytes p - hBits p).toNat)) :: rest) := by
  have hB := hBytes_range h
  have hb := hBits_range h
  have hm := maskBound_range h
  have hlen : ((Sha1.Sum seed).drop (20 - hBytes p).toNat).length = (hBytes p).toNat := by
    rw [List.length_drop, Sha1.Sum_length]; omega
  obtain ⟨b, rest, hbr⟩ : ∃ b rest, (Sha1.Sum seed).drop (20 - hBytes p).toNat = b :: rest := by
    cases hd : (Sha1.Sum seed).drop (20 - hBytes p).toNat with
    | nil => rw [hd] at hlen; simp at hlen; omega
    | cons b rest => exact ⟨b, rest, rfl⟩
  refine ⟨b, rest, hbr, ?_, ?_⟩
  · rw [hbr] at hlen; simpa using hlen
  · have hs : sliceFrom (Sha1.Sum seed) (20 - hBytes p) = some (b :: rest) := by
      unfold sliceFrom
      rw [if_pos ⟨by omega, by rw [Sha1.Sum_length]; omega⟩, hbr]
    unfold w0
    rw [hs]
    show maskLoop (b :: rest) _ = _
    rw [maskBound_eq h]
    rw [maskBound_eq h] at hm
    obtain ⟨k, hk⟩ : ∃ k : Nat, 8 * hBytes p - hBits p = (k : Int) :=
      ⟨(8 * hBytes p - hBits p).toNat, by omega⟩
    rw [hk, maskLoop_cons _ _ _ (by omega)]
    simp

theorem w0_isSome {p : Nat} (h : 1 ≤ BitLen p) (seed : List Nat) : (w0 p seed).isSome = true := by
  obtain ⟨b, rest, -, -, hw⟩ := w0_spec h seed
  simp [hw]

theorem w0_length {p : Nat} (h : 1 ≤ BitLen p) {seed w : List Nat} (hw : w0 p seed = some w) :
    (w.length : Int) = hBytes p := by
  obtain ⟨b, rest, -, hl, hw2⟩ := w0_spec h seed
  have hB := hBytes_range h
  rw [hw2] at hw
  cases hw
  simp only [List.length_cons]
  omega

theorem w0_lt {p : Nat} (h : 1 ≤ BitLen p) {seed w : List Nat} (hw : w0 p seed = some w) :
    SetBytes w < 2 ^ ((hBits p).toNat - 1) := by
  obtain ⟨b, rest, hbr, hl, hw2⟩ := w0_spec h seed
  have hB := hBytes_range h
  have hb := hBits_range h
  have hm := maskBound_range h
  rw [maskBound_eq h] at hm
  rw [hw2] at hw
  cases hw
  rw [SetBytes_cons]
  have hrest : SetBytes rest < 256 ^ rest.length := by
    apply SetBytes_lt
    intro c hc
    have : c ∈ Sha1.Sum seed := List.mem_of_mem_drop (hbr ▸ List.mem_cons_of_mem _ hc)
    exact Sha1.Sum_lt this
  have hfirst : b % 2 ^ (7 - (8 * hBytes p - hBits p).toNat) <
      2 ^ (7 - (8 * hBytes p - hBits p).toNat) := Nat.mod_lt _ (by positivity)
  have hexp : (hBits p).toNat - 1 = (7 - (8 * hBytes p - hBits p).toNat) + 8 * rest.length := by
    omega
  have h256 : (256 : Nat) ^ rest.length = 2 ^ (8 * rest.length) := by
    rw [pow_mul]; norm_num
  rw [hexp, pow_add, ← h256]
  generalize 2 ^ (7 - (8 * hBytes p - hBits p).toNat) = M at hfirst ⊢
  generalize b % M = x at hfirst ⊢
  have : (x + 1) * 256 ^ rest.length ≤ M * 256 ^ rest.length :=
    Nat.mul_le_mul_right _ hfirst
  nlinarith

end Generate

namespace Generate
open Big

theorem wBlocks_length (p : Nat) (seed : List Nat) :
    (wBlocks p seed).length = (sCount p).toNat := by
  simp [wBlocks]

theorem length_flatten_of_forall {n : Nat} (l : List (List Nat)) (h : ∀ x ∈ l, x.length = n) :
    l.flatten.length = n * l.length := by
  induction l with
  | nil => simp
  | cons x l ih =>
    rw [List.flatten_cons, List.length_append, h x (List.mem_cons_self _ _),
      ih (fun y hy => h y (List.mem_cons_of_mem _ hy)), List.length_cons]
    ring

theorem wBlocks_flatten_length (p : Nat) (seed : List Nat) :
    (wBlocks p seed).flatten.length = 20 * (sCount p).toNat := by
  rw [length_flatten_of_forall (n := 20), wBlocks_length]
  intro x hx
  simp only [wBlocks, List.mem_map] at hx
  obtain ⟨i, -, rfl⟩ := hx
  exact Sha1.Sum_length _

theorem wBlocks_flatten_lt {p : Nat} {seed : List Nat} {c : Nat}
    (hc : c ∈ (wBlocks p seed).flatten) : c < 256 := by
  simp only [wBlocks, List.mem_flatten, List.mem_map] at hc
  obtain ⟨l, ⟨i, -, rfl⟩, hcl⟩ := hc
  exact Sha1.Sum_lt hcl

theorem rBuf_eq {p : Nat} {seed w : List Nat} (hw : w0 p seed = some w) :
    rBuf p seed = some (w ++ (wBlocks p seed).flatten) := by
  unfold rBuf
  rw [hw]

theorem expandR_eq {p : Nat} {seed w : List Nat} (hw : w0 p seed = some w) :
    expandR p seed = some (SetBytes (w ++ (wBlocks p seed).flatten)) := by
  unfold expandR
  rw [rBuf_eq hw]

theorem expandR_isSome {p : Nat} (h : 1 ≤ BitLen p) (seed : List Nat) :
    (expandR p seed).isSome = true := by
  obtain ⟨b, rest, -, -, hw⟩ := w0_spec h seed
  rw [expandR_eq hw]
  rfl

theorem BitLen_decomp {p : Nat} (h : 1 ≤ BitLen p) :
    ((hBits p).toNat - 1) + 160 * (sCount p).toNat = BitLen p - 1 := by
  have hb := hBits_range h
  have hs := sCount_eq h
  have : hBits p = (BitLen p : Int) - 160 * sCount p := rfl
  omega

theorem expandR_lt {p : Nat} (h : 1 ≤ BitLen p) {seed : List Nat} {r : Nat}
    (hr : expandR p seed = some r) : r < 2 ^ (BitLen p - 1) := by
  obtain ⟨b, rest, -, -, hw⟩ := w0_spec h seed
  rw [expandR_eq hw] at hr
  cases hr
  rw [SetBytes_append, wBlocks_flatten_length]
  have h1 := w0_lt h hw
  have h2 : SetBytes (wBlocks p seed).flatten < 256 ^ (20 * (sCount p).toNat) := by
    have := SetBytes_lt (wBlocks p seed).flatten (fun c hc => wBlocks_flatten_lt hc)
    rwa [wBlocks_flatten_length] at this
  have h256 : (256 : Nat) ^ (20 * (sCount p).toNat) = 2 ^ (160 * (sCount p).toNat) := by
    rw [show (256 : Nat) = 2 ^ 8 by norm_num, ← pow_mul]; congr 1; omega
  rw [← BitLen_decomp h, pow_add, ← h256]
  generalize 2 ^ ((hBits p).toNat - 1) = M at h1 ⊢
  generalize SetBytes _ = x at h1 ⊢
  generalize SetBytes _ = y at h2 ⊢
  have : (x + 1) * 256 ^ (20 * (sCount p).toNat) ≤ M * 256 ^ (20 * (sCount p).toNat) :=
    Nat.mul_le_mul_right _ h1
  nlinarith

theorem expandR_congr {p q : Nat} (h : BitLen p = BitLen q) (seed : List Nat) :
    expandR p seed = expandR q seed := by
  have hs : sCount p = sCount q := by unfold sCount; rw [h]
  have hb : hBits p = hBits q := by unfold hBits; rw [h, hs]
  have hB : hBytes p = hBytes q := by unfold hBytes; rw [hb]
  unfold expandR rBuf w0 wBlocks
  rw [hs, hb, hB]

theorem PCurve_ok_expandR {p : Nat} {a : Int} {seed : List Nat} {res : Result}
    (h : PCurve p a seed = .ok res) : ∃ r : Nat, expandR p seed = some r ∧ res.R = r := by
  unfold PCurve at h
  cases hr : expandR p seed with
  | none => simp [hr] at h
  | some r =>
    refine ⟨r, rfl, ?_⟩
    simp only [hr] at h
    split at h <;> try cases h
    split at h <;> try cases h
    split at h <;> try cases h
    split at h <;> try cases h
    split at h <;> try cases h
    rfl

end Generate

/-! ## Modular exponentiation -/

namespace Big

theorem expLoop_mod (f acc b y m : Nat) (hacc : acc % m = acc) :
    expLoop f acc b y m % m = expLoop f acc b y m := by
  induction f generalizing acc b y with
  | zero => exact hacc
  | succ f ih =>
    unfold expLoop
    split_ifs with h0 h1
    · exact hacc
    · exact ih _ _ _ (Nat.mod_mod _ _)
    · exact ih _ _ _ hacc

theorem expLoop_modEq (f acc b y m : Nat) (hy : y < 2 ^ f) :
    expLoop f acc b y m ≡ acc * b ^ y [MOD m] := by
  induction f generalizing acc b y with
  | zero =>
    have : y = 0 := by simpa using hy
    subst this
    simp [expLoop, Nat.ModEq]
  | succ f ih =>
    unfold expLoop
    by_cases h0 : y = 0
    · subst h0; simp [Nat.ModEq]
    · rw [if_neg h0]
      have hy2 : y / 2 < 2 ^ f := by rw [pow_succ] at hy; omega
      have hsq : (b * b % m) ^ (y / 2) ≡ (b * b) ^ (y / 2) [MOD m] :=
        (Nat.mod_modEq _ _).pow _
      split_ifs with h1
      · refine (ih _ _ _ hy2).trans ?_
        have hb : b ^ y = b * (b * b) ^ (y / 2) := by
          conv_lhs => rw [← Nat.div_add_mod y 2, h1]
          rw [pow_succ, pow_mul, pow_two]; ring
        rw [hb, ← mul_assoc]
        exact (Nat.mod_modEq _ _).mul hsq
      · refine (ih _ _ _ hy2).trans ?_
        have hb : b ^ y = (b * b) ^ (y / 2) := by
          conv_lhs => rw [← Nat.div_add_mod y 2, show y % 2 = 0 by omega]
          rw [add_zero, pow_mul, pow_two]
        rw [hb]
        exact (Nat.ModEq.refl _).mul hsq

theorem expNN_eq (x y m : Nat) : expNN x y m = x ^ y % m := by
  unfold expNN
  rw [← expLoop_mod _ _ _ _ _ (Nat.mod_mod 1 m)]
  have h := expLoop_modEq (BitLen y) (1 % m) (x % m) y m (lt_two_pow_BitLen y)
  rw [h]
  have h2 : 1 % m * (x % m) ^ y ≡ 1 * x ^ y [MOD m] :=
    (Nat.mod_modEq _ _).mul ((Nat.mod_modEq _ _).pow _)
  rw [h2, one_mul]

theorem expNN_lt (x y : Nat) {m : Nat} (hm : 0 < m) : expNN x y m < m := by
  rw [expNN_eq]; exact Nat.mod_lt _ hm

end Big

/-! ## Modular inverse -/

namespace Big

theorem xgcd_spec (g n : Nat) (f r0 : Nat) (s0 : Int) (r1 : Nat) (s1 : Int) (hf : r1 < f)
    (h0 : (r0 : Int) ≡ s0 * g [ZMOD n]) (h1 : (r1 : Int) ≡ s1 * g [ZMOD n]) :
    (xgcd f r0 s0 r1 s1).1 = Nat.gcd r0 r1 ∧
      ((xgcd f r0 s0 r1 s1).1 : Int) ≡ (xgcd f r0 s0 r1 s1).2 * g [ZMOD n] := by
  induction f generalizing r0 s0 r1 s1 with
  | zero => omega
  | succ f ih =>
    unfold xgcd
    by_cases hr : r1 = 0
    · subst hr
      simpa using h0
    · rw [if_neg hr]
      have hlt : r0 % r1 < f := by
        have := Nat.mod_lt r0 (Nat.pos_of_ne_zero hr)
        omega
      have hstep : ((r0 % r1 : Nat) : Int) ≡ (s0 - ((r0 / r1 : Nat) : Int) * s1) * g [ZMOD n] := by
        have e : ((r0 % r1 : Nat) : Int) = r0 - ((r0 / r1 : Nat) : Int) * r1 := by
          have := Nat.div_add_mod r0 r1
          push_cast
          have h2 : (r0 : Int) = r1 * (r0 / r1) + r0 % r1 := by exact_mod_cast this.symm
          linarith
        rw [e, sub_mul, mul_assoc]
        exact h0.sub (h1.mul_left _)
      obtain ⟨hd, hx⟩ := ih r1 s1 (r0 % r1) _ hlt h1 hstep
      refine ⟨?_, hx⟩
      rw [hd, Nat.gcd_comm r0 r1, Nat.gcd_rec r1 r0, Nat.gcd_comm]

theorem xgcd_init (g n : Nat) :
    (xgcd (n + 1) g 1 n 0).1 = Nat.gcd g n ∧
      ((xgcd (n + 1) g 1 n 0).1 : Int) ≡ (xgcd (n + 1) g 1 n 0).2 * g [ZMOD n] :=
  xgcd_spec g n (n + 1) g 1 n 0 (Nat.lt_succ_self n) (by simp)
    (by simpa using (Int.modEq_zero_iff_dvd.mpr (dvd_refl (n : Int))))

theorem ModInverse_eq_none_iff (g n : Nat) : ModInverse g n = none ↔ Nat.gcd g n ≠ 1 := by
  unfold ModInverse
  simp only []
  rw [(xgcd_init g n).1]
  split_ifs with h <;> simp [h]

theorem ModInverse_some {g n z : Nat} (hn : 0 < n) (h : ModInverse g n = some z) :
    z < n ∧ g * z % n = 1 % n := by
  unfold ModInverse at h
  simp only [] at h
  split_ifs at h with hd
  simp only [ne_eq, not_not] at hd
  simp only [Option.some.injEq] at h
  have hx := (xgcd_init g n).2
  rw [hd] at hx
  set x := (xgcd (n + 1) g 1 n 0).2
  have hnz : (n : Int) ≠ 0 := by exact_mod_cast hn.ne'
  have hz : (z : Int) = x % n := by
    rw [← h]; exact Int.toNat_of_nonneg (Int.emod_nonneg _ hnz)
  constructor
  · have : (z : Int) < n := by rw [hz]; exact Int.emod_lt_of_pos _ (by exact_mod_cast hn)
    exact_mod_cast this
  · have h1 : ((g * z : Nat) : Int) ≡ ((1 : Nat) : Int) [ZMOD n] := by
      push_cast
      rw [hz]
      have : x % (n : Int) ≡ x [ZMOD n] := Int.mod_modEq _ _
      calc (g : Int) * (x % n) ≡ g * x [ZMOD n] := this.mul_left _
        _ = x * g := mul_comm _ _
        _ ≡ 1 [ZMOD n] := hx.symm
    exact (Int.natCast_modEq_iff.mp h1)

theorem ModInverse_isSome_iff (g n : Nat) : (ModInverse g n).isSome = true ↔ Nat.gcd g n = 1 := by
  rw [← not_iff_not, ← ne_eq, ← ne_eq]
  rw [← ModInverse_eq_none_iff]
  cases ModInverse g n <;> simp

end Big

/-! ## Exponentiation of signed integers -/

namespace Big

theorem neg_natCast_emod (N m : Nat) (hm : 0 < m) :
    (-(N : Int)) % (m : Int) = if N % m = 0 then 0 else (m : Int) - ((N % m : Nat) : Int) := by
  have hcong : (-(((N % m : Nat) : Int))) % (m : Int) = (-(N : Int)) % (m : Int) := by
    have h : (((N % m : Nat) : Int)) ≡ (N : Int) [ZMOD m] := by
      rw [Int.natCast_mod]; exact Int.mod_modEq _ _
    exact h.neg
  rw [← hcong]
  split_ifs with h0
  · rw [h0]; simp
  · have hlt : N % m < m := Nat.mod_lt _ hm
    rw [Int.neg_emod, Int.emod_eq_of_lt (by omega) (by omega)]

theorem Exp_of_nonneg (x : Int) {y : Int} (hy : 0 ≤ y) {m : Nat} (hm : 0 < m) :
    Exp x y m = some (x ^ y.toNat % (m : Int)) := by
  unfold Exp
  rw [if_neg (by omega), if_neg (by omega)]
  simp only []
  rw [expNN_eq]
  by_cases hx : x < 0
  · have habs : (x.natAbs : Int) = -x := by omega
    by_cases hodd : y.toNat % 2 = 1
    · have hpow : x ^ y.toNat = -((x.natAbs ^ y.toNat : Nat) : Int) := by
        rw [Nat.cast_pow, habs, (Nat.odd_iff.mpr hodd).neg_pow, neg_neg]
      rw [hpow, neg_natCast_emod _ _ hm]
      by_cases hz : x.natAbs ^ y.toNat % m = 0
      · rw [if_neg (fun h => h.1 hz), if_pos hz, hz]; rfl
      · rw [if_pos ⟨hz, hx, hodd⟩, if_neg hz]
    · have hpow : x ^ y.toNat = ((x.natAbs ^ y.toNat : Nat) : Int) := by
        rw [Nat.cast_pow, habs, (Nat.even_iff.mpr (by omega)).neg_pow]
      rw [if_neg (fun h => hodd h.2.2), hpow, Int.natCast_mod]
  · have habs : (x.natAbs : Int) = x := by omega
    have hpow : x ^ y.toNat = ((x.natAbs ^ y.toNat : Nat) : Int) := by
      rw [Nat.cast_pow, habs]
    rw [if_neg (fun h => hx h.2.1), hpow, Int.natCast_mod]

theorem Exp_three (x : Int) {m : Nat} (hm : 0 < m) : Exp x 3 m = some (x ^ 3 % (m : Int)) :=
  Exp_of_nonneg x (by norm_num) hm

theorem Exp_ne_none_of_nonneg (x : Int) {y : Int} (hy : 0 ≤ y) (m : Nat) : Exp x y m ≠ none := by
  unfold Exp
  rw [if_neg (by omega)]
  simp only []
  split_ifs <;> simp

/-- A negative exponent: the inverse of the base is raised to `|y|`, and for a negative base
and an odd exponent the result is subtracted from the modulus. -/
theorem Exp_neg_exponent :
    Exp (-2) (-1) 7 = some 4 ∧ Exp 2 (-1) 7 = some 4 ∧ Exp (-2) (-2) 7 = some 2 ∧
      Exp 7 (-1) 7 = none ∧ Exp 5 (-1) 0 = some 1 := by
  decide!

end Big

/-! ## The Jacobi symbol -/

namespace Big

theorem trailingZeroBitsAux_spec (f n : Nat) (hn : n ≠ 0) (hf : n ≤ f) :
    n = 2 ^ trailingZeroBitsAux f n * (n / 2 ^ trailingZeroBitsAux f n) ∧
      (n / 2 ^ trailingZeroBitsAux f n) % 2 = 1 := by
  induction f generalizing n with
  | zero => omega
  | succ f ih =>
    unfold trailingZeroBitsAux
    by_cases h1 : n % 2 = 1
    · simp [h1]
    · rw [if_neg h1]
      obtain ⟨e1, e2⟩ := ih (n / 2) (by omega) (by omega)
      have hdiv : n / 2 ^ (trailingZeroBitsAux f (n / 2) + 1) =
          n / 2 / 2 ^ trailingZeroBitsAux f (n / 2) := by
        rw [pow_succ, mul_comm, Nat.div_div_eq_div_mul]
      rw [hdiv]
      refine ⟨?_, e2⟩
      rw [pow_succ, mul_assoc, mul_comm 2, ← mul_assoc, ← e1]
      omega

theorem trailingZeroBits_spec {n : Nat} (hn : n ≠ 0) :
    n = 2 ^ trailingZeroBits n * (n >>> trailingZeroBits n) ∧
      (n >>> trailingZeroBits n) % 2 = 1 := by
  unfold trailingZeroBits
  rw [if_neg hn, Nat.shiftRight_eq_div_pow]
  exact trailingZeroBitsAux_spec n n hn le_rfl

theorem jacobiSym_two_pow_mul (s c b : Nat) (hb : b % 2 = 1) :
    jacobiSym ((2 ^ s * c : Nat) : Int) b =
      (if s % 2 = 1 ∧ (b % 8 = 3 ∨ b % 8 = 5) then -1 else 1) * jacobiSym c b := by
  have hodd : Odd b := Nat.odd_iff.mpr hb
  push_cast
  rw [jacobiSym.mul_left, jacobiSym.pow_left, jacobiSym.at_two hodd,
    ZMod.χ₈_nat_eq_if_mod_eight]
  congr 1
  have hb2 : ¬ b % 2 = 0 := by omega
  rw [if_neg hb2]
  by_cases h8 : b % 8 = 1 ∨ b % 8 = 7
  · rw [if_pos h8, one_pow, if_neg]
    rintro ⟨-, h | h⟩ <;> omega
  · rw [if_neg h8]
    have h35 : b % 8 = 3 ∨ b % 8 = 5 := by omega
    by_cases hs : s % 2 = 1
    · rw [if_pos ⟨hs, h35⟩]
      exact (Nat.odd_iff.mpr hs).neg_one_pow
    · rw [if_neg (fun h => hs h.1)]
      exact (Nat.even_iff.mpr (by omega)).neg_one_pow

theorem jacobiLoop_eq (f a b : Nat) (j : Int) (hb : b % 2 = 1) (hf : b ≤ f) :
    jacobiLoop f a b j = j * jacobiSym a b := by
  induction f generalizing a b j with
  | zero => omega
  | succ f ih =>
    unfold jacobiLoop
    by_cases hb1 : b = 1
    · subst hb1; simp
    rw [if_neg hb1]
    have hbgt : 1 < b := by omega
    by_cases ha : a = 0
    · subst ha
      rw [if_pos rfl]
      simp [jacobiSym.zero_left hbgt]
    rw [if_neg ha]
    have hmod : jacobiSym a b = jacobiSym ((a % b : Nat) : Int) b := by
      rw [jacobiSym.mod_left]; push_cast; rfl
    by_cases ha1 : a % b = 0
    · simp only [ha1, if_true]
      rw [hmod, ha1]
      simp [jacobiSym.zero_left hbgt]
    simp only [ha1, if_false]
    obtain ⟨e1, e2⟩ := trailingZeroBits_spec ha1
    set s := trailingZeroBits (a % b)
    set c := (a % b) >>> s
    have hcb : c < b := by
      have h1 : a % b < b := Nat.mod_lt _ (by omega)
      have h2 : c ≤ a % b := by
        calc c = 1 * c := (one_mul c).symm
          _ ≤ 2 ^ s * c := Nat.mul_le_mul_right _ Nat.one_le_two_pow
          _ = a % b := e1.symm
      omega
    rw [ih b c _ e2 (by omega), hmod]
    conv_rhs => rw [e1]
    rw [jacobiSym_two_pow_mul s c b hb, ← jacobiSym.quadratic_reciprocity_if e2 hb]
    by_cases h1 : s % 2 = 1 ∧ (b % 8 = 3 ∨ b % 8 = 5) <;>
      by_cases h2 : b % 4 = 3 ∧ c % 4 = 3 <;>
      simp [h1, h2, and_comm]

theorem Jacobi_eq {x y : Nat} (hy : y % 2 = 1) : Jacobi x y = some (jacobiSym x y) := by
  unfold Jacobi
  rw [if_neg (by omega), jacobiLoop_eq y x y 1 hy le_rfl, one_mul]

theorem Jacobi_eq_none {x y : Nat} (hy : y % 2 = 0) : Jacobi x y = none := by
  unfold Jacobi
  rw [if_pos hy]

end Big

/-! ## Square roots modulo a prime -/

namespace Big

variable {p : ℕ} [hp : Fact p.Prime]

theorem cast_expNN (x y : Nat) : ((expNN x y p : Nat) : ZMod p) = (x : ZMod p) ^ y := by
  rw [expNN_eq, ZMod.natCast_mod, Nat.cast_pow]

theorem pow_half_eq_jacobiSym (x : Nat) :
    (x : ZMod p) ^ (p / 2) = ((jacobiSym x p : Int) : ZMod p) := by
  have h := legendreSym.eq_pow p (x : Int)
  rw [jacobiSym.legendreSym.to_jacobiSym] at h
  rw [h, Int.cast_natCast]

theorem eq_of_cast_eq {a b : Nat} (hb : b < p) (h : (a : ZMod p) = (b : ZMod p)) :
    a % p = b := by
  have := (ZMod.natCast_eq_natCast_iff' a b p).mp h
  rwa [Nat.mod_eq_of_lt hb] at this

theorem modSqrt3Mod4Prime_sq {x : Nat} (hx : x < p) (h4 : p % 4 = 3)
    (hj : jacobiSym x p = 1) :
    modSqrt3Mod4Prime x p * modSqrt3Mod4Prime x p % p = x := by
  apply eq_of_cast_eq hx
  have he := pow_half_eq_jacobiSym (p := p) x
  rw [hj, Int.cast_one] at he
  unfold modSqrt3Mod4Prime
  rw [Nat.cast_mul, cast_expNN, Nat.shiftRight_eq_div_pow, ← pow_add]
  have : (p + 1) / 2 ^ 2 + (p + 1) / 2 ^ 2 = p / 2 + 1 := by omega
  rw [this, pow_succ, he, one_mul]

theorem modSqrt5Mod8Prime_sq {x : Nat} (hx : x < p) (h8 : p % 8 = 5)
    (hj : jacobiSym x p = 1) :
    modSqrt5Mod8Prime x p * modSqrt5Mod8Prime x p % p = x ∧ modSqrt5Mod8Prime x p < p := by
  have hp0 : 0 < p := hp.out.pos
  have hpz : (p : Int) ≠ 0 := by exact_mod_cast hp0.ne'
  have he := pow_half_eq_jacobiSym (p := p) x
  rw [hj, Int.cast_one] at he
  have h2 : (2 : ZMod p) ^ (p / 2) = -1 := by
    have h := pow_half_eq_jacobiSym (p := p) 2
    have hodd : Odd p := Nat.odd_iff.mpr (by omega)
    have hj2 : jacobiSym ((2 : Nat) : Int) p = -1 := by
      rw [Nat.cast_ofNat, jacobiSym.at_two hodd, ZMod.χ₈_nat_eq_if_mod_eight,
        if_neg (by omega), if_neg (by omega)]
    rw [hj2] at h
    simpa using h
  set X : ZMod p := (x : ZMod p) with hX
  set A : ZMod p := (2 * X) ^ (p / 8) with hA
  have hbeta : (A * A * (2 * X)) ^ 2 = -1 := by
    have : (A * A * (2 * X)) ^ 2 = (2 * X) ^ (p / 2) := by
      rw [hA, ← pow_add, ← pow_succ, ← pow_mul]
      congr 1; omega
    rw [this, mul_pow, h2, he]; ring
  set r : Int := ((((expNN (x <<< 1) (p >>> 3) p * expNN (x <<< 1) (p >>> 3) p % p *
      (x <<< 1) % p : Nat) : Int) - 1) * (x : Int) % (p : Int)) *
      (expNN (x <<< 1) (p >>> 3) p : Int) % (p : Int) with hr
  have hrn : 0 ≤ r := Int.emod_nonneg _ hpz
  have hrl : r < p := Int.emod_lt_of_pos _ (by exact_mod_cast hp0)
  have hres : modSqrt5Mod8Prime x p = r.toNat := rfl
  have hcast : ((r.toNat : Nat) : ZMod p) = (A * A * (2 * X) - 1) * X * A := by
    have h1 : ((r.toNat : Nat) : ZMod p) = ((r : Int) : ZMod p) := by
      conv_rhs => rw [← Int.toNat_of_nonneg hrn]
      rw [Int.cast_natCast]
    have hshift : ((x <<< 1 : Nat) : ZMod p) = 2 * X := by
      rw [Nat.shiftLeft_eq, pow_one, Nat.cast_mul, mul_comm]; rfl
    have halpha : ((expNN (x <<< 1) (p >>> 3) p : Nat) : ZMod p) = A := by
      rw [cast_expNN, hshift, Nat.shiftRight_eq_div_pow]
    rw [h1, hr]
    simp only [ZMod.intCast_mod, Int.cast_mul, Int.cast_sub, Int.cast_natCast, Int.cast_one,
      ZMod.natCast_mod, Nat.cast_mul, Nat.cast_one, halpha, hshift]
  constructor
  · apply eq_of_cast_eq hx
    rw [hres, Nat.cast_mul, hcast]
    have e : ((A * A * (2 * X) - 1) * X * A) * ((A * A * (2 * X) - 1) * X * A) =
        ((A * A * (2 * X)) ^ 2 - 2 * (A * A * (2 * X)) + 1) * X ^ 2 * A ^ 2 := by ring
    rw [e, hbeta]
    have e2 : (-1 - 2 * (A * A * (2 * X)) + 1) * X ^ 2 * A ^ 2 =
        -((A * A * (2 * X)) ^ 2) * X := by ring
    rw [e2, hbeta]; ring
  · rw [hres]
    have : ((r.toNat : Nat) : Int) < p := by rw [Int.toNat_of_nonneg hrn]; exact hrl
    exact_mod_cast this

end Big

/-! ## Tonelli and Shanks -/

namespace Big

variable {p : ℕ} [hp : Fact p.Prime]

theorem findNonSquare_some (f n q k : Nat) (hk1 : n ≤ k) (hk2 : k < n + f)
    (hk : Jacobi k q = some (-1)) :
    ∃ m, findNonSquare f n q = some m ∧ Jacobi m q = some (-1) := by
  induction f generalizing n with
  | zero => omega
  | succ f ih =>
    unfold findNonSquare
    by_cases hn : Jacobi n q = some (-1)
    · exact ⟨n, by rw [if_pos hn], hn⟩
    · rw [if_neg hn]
      have hne : n ≠ k := fun h => hn (h ▸ hk)
      exact ih (n + 1) (by omega) (by omega)

theorem exists_nonSquare (hodd : p % 2 = 1) :
    ∃ k, 2 ≤ k ∧ k < p ∧ jacobiSym (k : Int) p = -1 := by
  have hchar : ringChar (ZMod p) ≠ 2 := by
    rw [ZMod.ringChar_zmod_n]; omega
  obtain ⟨a, ha⟩ := FiniteField.exists_nonsquare hchar
  refine ⟨a.val, ?_, ZMod.val_lt a, ?_⟩
  · by_contra hlt
    have hval : a.val = 0 ∨ a.val = 1 := by omega
    have hcast : ((a.val : Nat) : ZMod p) = a := ZMod.natCast_zmod_val a
    rcases hval with h | h
    · rw [h, Nat.cast_zero] at hcast
      exact ha (hcast ▸ isSquare_zero)
    · rw [h, Nat.cast_one] at hcast
      exact ha (hcast ▸ isSquare_one)
  · rw [← jacobiSym.legendreSym.to_jacobiSym, legendreSym.eq_neg_one_iff, Int.cast_natCast,
      ZMod.natCast_zmod_val]
    exact ha

theorem cast_ne_one {t : Nat} (ht : t < p) (h1 : t ≠ 1) : (t : ZMod p) ≠ 1 := by
  intro h
  have h2 : ((t : Nat) : ZMod p) = ((1 : Nat) : ZMod p) := by rw [h, Nat.cast_one]
  have := eq_of_cast_eq (p := p) hp.out.one_lt h2
  rw [Nat.mod_eq_of_lt ht] at this
  exact h1 this

theorem orderLoop_spec (f t m k : Nat) (ht : t < p) (hk : k < f)
    (h1 : (t : ZMod p) ^ (2 ^ k) = 1) :
    ∃ d, d ≤ k ∧ orderLoop f t m p = some (m + d) ∧ (t : ZMod p) ^ (2 ^ d) = 1 ∧
      ∀ i < d, (t : ZMod p) ^ (2 ^ i) ≠ 1 := by
  induction f generalizing t m k with
  | zero => omega
  | succ f ih =>
    unfold orderLoop
    by_cases ht1 : t = 1
    · refine ⟨0, Nat.zero_le _, by rw [if_pos ht1]; rfl, by simp [ht1], ?_⟩
      intro i hi; omega
    · rw [if_neg ht1]
      have hT : (t : ZMod p) ≠ 1 := cast_ne_one ht ht1
      obtain ⟨k', rfl⟩ : ∃ k', k = k' + 1 := by
        cases k with
        | zero => simp at h1; exact absurd h1 hT
        | succ k' => exact ⟨k', rfl⟩
      have hlt : t * t % p < p := Nat.mod_lt _ hp.out.pos
      have hcast : ((t * t % p : Nat) : ZMod p) = (t : ZMod p) ^ 2 := by
        rw [ZMod.natCast_mod, Nat.cast_mul, pow_two]
      have h1' : ((t * t % p : Nat) : ZMod p) ^ (2 ^ k') = 1 := by
        rw [hcast, ← pow_mul, ← pow_succ']; exact h1
      obtain ⟨d, hd1, hd2, hd3, hd4⟩ := ih (t * t % p) (m + 1) k' hlt (by omega) h1'
      refine ⟨d + 1, by omega, by rw [hd2]; congr 1; omega, ?_, ?_⟩
      · rw [pow_succ', pow_mul, ← hcast]; exact hd3
      · intro i hi
        cases i with
        | zero => simpa using hT
        | succ i =>
          rw [pow_succ', pow_mul, ← hcast]
          exact hd4 i (by omega)

theorem eq_neg_one_of_sq {u : ZMod p} (h1 : u ^ 2 = 1) (h2 : u ≠ 1) : u = -1 := by
  have : (u - 1) * (u + 1) = 0 := by ring_nf; rw [h1]; ring
  rcases mul_eq_zero.mp this with h | h
  · exact absurd (sub_eq_zero.mp h) h2
  · exact eq_neg_of_add_eq_zero_left h

theorem tonelliLoop_spec (x : Nat) (f y b g r : Nat) (hr : r < f) (hrp : r ≤ p) (hr1 : 1 ≤ r)
    (hy : y < p) (h1 : (y : ZMod p) ^ 2 = x * b)
    (h2 : (g : ZMod p) ^ (2 ^ (r - 1)) = -1) (h3 : (b : ZMod p) ^ (2 ^ (r - 1)) = 1)
    (hb : b < p) :
    ∃ z, tonelliLoop f y b g r p = .root z ∧ z < p ∧ (z : ZMod p) ^ 2 = x := by
  induction f generalizing y b g r with
  | zero => omega
  | succ f ih =>
    have hp0 : 0 < p := hp.out.pos
    obtain ⟨d, hd1, hd2, hd3, hd4⟩ := orderLoop_spec p b 0 (r - 1) hb (by omega) h3
    unfold tonelliLoop
    rw [hd2, Nat.zero_add]
    simp only []
    by_cases hd0 : d = 0
    · subst hd0
      rw [if_pos rfl]
      refine ⟨y, rfl, hy, ?_⟩
      rw [h1]
      simp only [pow_zero, pow_one] at hd3
      rw [hd3, mul_one]
    · rw [if_neg hd0, if_neg (by omega)]
      set t := expNN g (2 ^ (r - d - 1)) p with ht
      have hT : (t : ZMod p) = (g : ZMod p) ^ (2 ^ (r - d - 1)) := cast_expNN _ _
      have hG1 : ((t * t % p : Nat) : ZMod p) = (t : ZMod p) ^ 2 := by
        rw [ZMod.natCast_mod, Nat.cast_mul, pow_two]
      have hTd : (t : ZMod p) ^ (2 ^ d) = -1 := by
        rw [hT, ← pow_mul, ← pow_add, ← h2]
        congr 2; omega
      have hG1d : ((t * t % p : Nat) : ZMod p) ^ (2 ^ (d - 1)) = -1 := by
        rw [hG1, ← pow_mul, ← pow_succ', ← hTd]
        congr 2; omega
      have hBd : (b : ZMod p) ^ (2 ^ (d - 1)) = -1 := by
        apply eq_neg_one_of_sq
        · rw [← pow_mul, ← pow_succ, ← hd3]
          congr 2; omega
        · exact hd4 (d - 1) (by omega)
      apply ih (y * t % p) (b * (t * t % p) % p) (t * t % p) d (by omega) (by omega) (by omega)
        (Nat.mod_lt _ hp0)
      · rw [ZMod.natCast_mod, Nat.cast_mul, mul_pow, h1, ZMod.natCast_mod, Nat.cast_mul, hG1]
        ring
      · exact hG1d
      · rw [ZMod.natCast_mod, Nat.cast_mul, mul_pow, hBd, hG1d]; ring
      · exact Nat.mod_lt _ hp0

end Big

namespace Big

variable {p : ℕ} [hp : Fact p.Prime]

theorem sq_mod_of_cast {x z : Nat} (hx : x < p) (h : (z : ZMod p) ^ 2 = x) : z * z % p = x := by
  apply eq_of_cast_eq hx
  rw [Nat.cast_mul, ← pow_two, h]

theorem modSqrtTonelliShanks_spec {x : Nat} (hx : x < p) (hodd : p % 2 = 1)
    (hj : jacobiSym x p = 1) :
    ∃ z, modSqrtTonelliShanks x p = .root z ∧ z < p ∧ z * z % p = x := by
  have hp1 : 1 < p := hp.out.one_lt
  have hp0 : 0 < p := hp.out.pos
  have hne : p - 1 ≠ 0 := by omega
  obtain ⟨e1, e2⟩ := trailingZeroBits_spec hne
  have he := pow_half_eq_jacobiSym (p := p) x
  rw [hj, Int.cast_one] at he
  obtain ⟨k, hk2, hkp, hkj⟩ := exists_nonSquare (p := p) hodd
  obtain ⟨n, hn1, hn2⟩ := findNonSquare_some p 2 p k hk2 (by omega)
    (by rw [Jacobi_eq hodd, hkj])
  rw [Jacobi_eq hodd] at hn2
  have hnj : jacobiSym (n : Int) p = -1 := by simpa using hn2
  have hne2 := pow_half_eq_jacobiSym (p := p) n
  rw [hnj, Int.cast_neg, Int.cast_one] at hne2
  unfold modSqrtTonelliShanks
  simp only []
  rw [hn1]
  simp only []
  set e := trailingZeroBits (p - 1) with hedef
  set s := (p - 1) >>> e with hsdef
  have he1 : 1 ≤ e := by
    by_contra hc
    have h0 : e = 0 := by omega
    rw [h0, pow_zero, one_mul] at e1
    omega
  have hpow : 2 ^ e = 2 * 2 ^ (e - 1) := by
    rw [← pow_succ']; congr 1; omega
  have hhalf : p / 2 = s * 2 ^ (e - 1) := by
    have : p - 1 = 2 * (2 ^ (e - 1) * s) := by rw [← mul_assoc, ← hpow]; exact e1
    rw [mul_comm s]
    generalize 2 ^ (e - 1) * s = M at this
    omega
  have hep : e ≤ p := by
    have h1 : e < 2 ^ e := Nat.lt_two_pow e
    have hs1 : 1 ≤ s := Nat.pos_of_ne_zero (by intro h; rw [h] at e2; simp at e2)
    have h2 : 2 ^ e ≤ p - 1 := by
      calc 2 ^ e = 2 ^ e * 1 := (mul_one _).symm
        _ ≤ 2 ^ e * s := Nat.mul_le_mul_left _ hs1
        _ = p - 1 := e1.symm
    omega
  obtain ⟨z, hz1, hz2, hz3⟩ := tonelliLoop_spec (p := p) x (e + 1)
    (expNN x ((s + 1) >>> 1) p) (expNN x s p) (expNN n s p) e (Nat.lt_succ_self e) hep he1
    (expNN_lt _ _ hp0)
    (by
      rw [cast_expNN, cast_expNN, ← pow_mul, Nat.shiftRight_eq_div_pow, pow_one,
        show (s + 1) / 2 * 2 = s + 1 by omega, pow_succ, mul_comm])
    (by rw [cast_expNN, ← pow_mul, ← hhalf, hne2])
    (by rw [cast_expNN, ← pow_mul, ← hhalf, he])
    (expNN_lt _ _ hp0)
  exact ⟨z, hz1, hz2, sq_mod_of_cast hx hz3⟩

theorem jacobiSym_eq_zero_iff {x : Nat} (hx : x < p) : jacobiSym (x : Int) p = 0 ↔ x = 0 := by
  rw [← jacobiSym.legendreSym.to_jacobiSym, legendreSym.eq_zero_iff, Int.cast_natCast]
  constructor
  · intro h
    have := eq_of_cast_eq (p := p) (b := 0) hp.out.pos (by simpa using h)
    rwa [Nat.mod_eq_of_lt hx] at this
  · rintro rfl; simp

theorem jacobiSym_trichotomy (x : Nat) :
    jacobiSym (x : Int) p = -1 ∨ jacobiSym (x : Int) p = 0 ∨ jacobiSym (x : Int) p = 1 := by
  rw [← jacobiSym.legendreSym.to_jacobiSym]
  by_cases h0 : ((x : Int) : ZMod p) = 0
  · exact Or.inr (Or.inl ((legendreSym.eq_zero_iff p x).mpr h0))
  · rcases legendreSym.eq_one_or_neg_one p h0 with h | h
    · exact Or.inr (Or.inr h)
    · exact Or.inl h

/-- For an odd prime `p` and a reduced `x`, `ModSqrt` returns nil exactly on the non-squares,
and otherwise a reduced square root. -/
theorem ModSqrt_spec {x : Nat} (hx : x < p) (hodd : p % 2 = 1) :
    (¬ IsSquare (x : ZMod p) ∧ ModSqrt x p = .null) ∨
      (IsSquare (x : ZMod p) ∧ ∃ z, ModSqrt x p = .root z ∧ z < p ∧ z * z % p = x) := by
  have hp0 : 0 < p := hp.out.pos
  unfold ModSqrt
  rw [Jacobi_eq hodd]
  simp only []
  rcases jacobiSym_trichotomy (p := p) x with hj | hj | hj
  · left
    refine ⟨?_, by rw [if_pos hj]⟩
    rw [← jacobiSym.legendreSym.to_jacobiSym, legendreSym.eq_neg_one_iff, Int.cast_natCast] at hj
    exact hj
  · right
    have hx0 : x = 0 := (jacobiSym_eq_zero_iff hx).mp hj
    refine ⟨by rw [hx0, Nat.cast_zero]; exact isSquare_zero, 0, ?_, hp0, by simp [hx0]⟩
    rw [if_neg (by rw [hj]; decide), if_pos hj]
  · right
    have hsq : IsSquare (x : ZMod p) := by
      have hne : ((x : Int) : ZMod p) ≠ 0 := by
        intro h0
        have := (legendreSym.eq_zero_iff p x).mpr h0
        rw [jacobiSym.legendreSym.to_jacobiSym, hj] at this
        exact one_ne_zero this
      have := (legendreSym.eq_one_iff p hne).mp (by rw [jacobiSym.legendreSym.to_jacobiSym, hj])
      rwa [Int.cast_natCast] at this
    refine ⟨hsq, ?_⟩
    have hx1 : (if p ≤ x then x % p else x) = x := if_neg (by omega)
    rw [if_neg (by rw [hj]; decide), if_neg (by rw [hj]; decide), hx1]
    by_cases h4 : p % 4 = 3
    · rw [if_pos h4]
      exact ⟨_, rfl, expNN_lt _ _ hp0, modSqrt3Mod4Prime_sq hx h4 hj⟩
    · rw [if_neg h4]
      by_cases h8 : p % 8 = 5
      · rw [if_pos h8]
        obtain ⟨h1, h2⟩ := modSqrt5Mod8Prime_sq hx h8 hj
        exact ⟨_, rfl, h2, h1⟩
      · rw [if_neg h8]
        exact modSqrtTonelliShanks_spec hx hodd hj

end Big

/-! ## The bounds on the loops of `modSqrtTonelliShanks` lose nothing -/

namespace Big

/-- The main loop returns the same outcome for every bound above `r`: the bound never runs
out. -/
theorem tonelliLoop_bound_irrelevant (f f' y b g r p : Nat) (hf : r < f) (hf' : r < f') :
    tonelliLoop f y b g r p = tonelliLoop f' y b g r p := by
  induction f generalizing f' y b g r with
  | zero => omega
  | succ f ih =>
    cases f' with
    | zero => omega
    | succ f' =>
      unfold tonelliLoop
      cases orderLoop p b 0 p with
      | none => rfl
      | some m =>
        simp only []
        by_cases hm : m = 0
        · rw [if_pos hm, if_pos hm]
        · rw [if_neg hm, if_neg hm]
          by_cases hr : r < m + 1
          · rw [if_pos hr, if_pos hr]
          · rw [if_neg hr, if_neg hr]
            exact ih f' _ _ _ m (by omega) (by omega)

/-- When the search over `p` candidates finds no non-square, no integer is one: the search of
the source would never exit. -/
theorem findNonSquare_none {p : Nat} (hodd : p % 2 = 1) (h : findNonSquare p 2 p = none)
    (n : Nat) : Jacobi n p ≠ some (-1) := by
  intro hn
  rw [Jacobi_eq hodd] at hn
  have hmod : ∀ m : Nat, jacobiSym (m : Int) p = jacobiSym ((m % p : Nat) : Int) p := by
    intro m
    rw [jacobiSym.mod_left]; push_cast; rfl
  by_cases hp1 : p = 1
  · subst hp1
    simp at hn
  have hp2 : 2 ≤ p := by omega
  have hlt : n % p < p := Nat.mod_lt _ (by omega)
  obtain ⟨k, hk1, hk2, hk3⟩ : ∃ k, 2 ≤ k ∧ k < 2 + p ∧ k % p = n % p := by
    by_cases h2 : 2 ≤ n % p
    · exact ⟨n % p, h2, by omega, Nat.mod_mod _ _⟩
    · exact ⟨n % p + p, by omega, by omega, by rw [Nat.add_mod_right, Nat.mod_mod]⟩
  have hk : Jacobi k p = some (-1) := by
    rw [Jacobi_eq hodd, hmod k, hk3, ← hmod n]
    exact hn
  obtain ⟨m, hm, -⟩ := findNonSquare_some p 2 p k hk1 hk2 hk
  rw [h] at hm
  cases hm

/-- The inner loop with bound `f` fails exactly when none of the first `f` iterated squares
is 1. -/
theorem orderLoop_eq_none_iff (f t m p : Nat) :
    orderLoop f t m p = none ↔ ∀ k < f, (fun x => x * x % p)^[k] t ≠ 1 := by
  induction f generalizing t m with
  | zero => simp [orderLoop]
  | succ f ih =>
    unfold orderLoop
    by_cases ht : t = 1
    · rw [if_pos ht]
      simp only [reduceCtorEq, false_iff, not_forall]
      exact ⟨0, Nat.succ_pos f, by simpa using ht⟩
    · rw [if_neg ht, ih]
      constructor
      · intro h k hk
        cases k with
        | zero => simpa using ht
        | succ k => rw [Function.iterate_succ_apply]; exact h k (by omega)
      · intro h k hk
        have := h (k + 1) (by omega)
        rwa [Function.iterate_succ_apply] at this

/-- When a reduced `t` reaches 1 under iterated squaring modulo `p` at all, it does so within
`p` steps, the bound of the inner loop. -/
theorem iterate_sq_eq_one_lt {p t k : Nat} (ht : t < p)
    (hk : (fun x => x * x % p)^[k] t = 1) : ∃ j < p, (fun x => x * x % p)^[j] t = 1 := by
  classical
  have hp0 : 0 < p := by omega
  have hex : ∃ j, (fun x => x * x % p)^[j] t = 1 := ⟨k, hk⟩
  refine ⟨Nat.find hex, ?_, Nat.find_spec hex⟩
  by_contra hge
  have hge' : p ≤ Nat.find hex := by omega
  have hlt : ∀ i, (fun x => x * x % p)^[i] t < p := by
    intro i
    cases i with
    | zero => simpa using ht
    | succ i =>
      rw [Function.iterate_succ_apply']
      exact Nat.mod_lt _ hp0
  let F : Fin (p + 1) → Fin p := fun i => ⟨(fun x => x * x % p)^[i.val] t, hlt _⟩
  obtain ⟨i1, i2, hne, heq⟩ := Fintype.exists_ne_map_eq_of_card_lt F (by simp)
  have hval : (fun x => x * x % p)^[i1.val] t = (fun x => x * x % p)^[i2.val] t :=
    congrArg Fin.val heq
  have key : ∀ a b : Nat, a < b → b ≤ p →
      (fun x => x * x % p)^[a] t = (fun x => x * x % p)^[b] t → False := by
    intro a b hab hbp he
    have h1 : (fun x => x * x % p)^[Nat.find hex - b + a] t = 1 := by
      rw [Function.iterate_add_apply, he, ← Function.iterate_add_apply,
        Nat.sub_add_cancel (by omega)]
      exact Nat.find_spec hex
    exact Nat.find_min hex (by omega) h1
  have h1 := i1.isLt
  have h2 := i2.isLt
  rcases Nat.lt_or_gt_of_ne (fun h => hne (Fin.ext h)) with hlt12 | hlt21
  · exact key _ _ hlt12 (by omega) hval
  · exact key _ _ hlt21 (by omega) hval.symm

/-- The inner loop with bound `p` fails only when the loop of the source would never exit. -/
theorem orderLoop_none {p t : Nat} (ht : t < p) (h : orderLoop p t 0 p = none) (k : Nat) :
    (fun x => x * x % p)^[k] t ≠ 1 := by
  intro hk
  obtain ⟨j, hj, hj1⟩ := iterate_sq_eq_one_lt ht hk
  exact (orderLoop_eq_none_iff p t 0 p).mp h j hj hj1

end Big

/-! ## The outcomes of `PCurve` -/

namespace Big

theorem isInt64_int64_zero (c : Int) : (IsInt64 c && Int64 c == 0) = true ↔ c = 0 := by
  unfold IsInt64 Int64
  simp only [Bool.and_eq_true, decide_eq_true_eq, beq_iff_eq]
  norm_num
  omega

theorem ModSqrt_even {x p : Nat} (hp : p % 2 = 0) : ModSqrt x p = .panic := by
  unfold ModSqrt
  rw [Jacobi_eq_none hp]

end Big

namespace Generate
open Big

/-- What a successful call has computed on its way. -/
theorem PCurve_ok_inv {p : Nat} {a : Int} {seed : List Nat} {res : Result}
    (h : PCurve p a seed = .ok res) :
    ∃ (r : Nat) (a3 : Int) (rinv z : Nat), expandR p seed = some r ∧ Exp a 3 p = some a3 ∧
      ModInverse r p = some rinv ∧
      ModSqrt ((a3 * (rinv : Int)) % (p : Int)).toNat p = .root z ∧
      (a3 * 4 + (a3 * (rinv : Int)) % (p : Int) * 27) % (p : Int) ≠ 0 ∧
      res = ⟨(r : Int), (z : Int), (p : Int) - (z : Int)⟩ := by
  unfold PCurve at h
  cases hr : expandR p seed with
  | none => rw [hr] at h; cases h
  | some r =>
    rw [hr] at h
    simp only [] at h
    cases ha : Exp a 3 p with
    | none => rw [ha] at h; cases h
    | some a3 =>
      rw [ha] at h
      simp only [] at h
      cases hi : ModInverse r p with
      | none => rw [hi] at h; cases h
      | some rinv =>
        rw [hi] at h
        simp only [Big.Mod] at h
        cases hs : ModSqrt ((a3 * (rinv : Int)) % (p : Int)).toNat p with
        | null => rw [hs] at h; cases h
        | panic => rw [hs] at h; cases h
        | diverge => rw [hs] at h; cases h
        | root z =>
          rw [hs] at h
          simp only [] at h
          split_ifs at h with hc
          refine ⟨r, a3, rinv, z, rfl, rfl, hi, hs, ?_, ?_⟩
          · intro h0
            exact hc ((isInt64_int64_zero _).mpr h0)
          · cases h; rfl

end Generate

namespace Generate
open Big

/-- The part of `PCurve` after the expansion, for a modulus `p > 0`. -/
theorem PCurve_eval {p : Nat} (hp : 0 < p) (a : Int) {seed : List Nat} {r : Nat}
    (hr : expandR p seed = some r) :
    PCurve p a seed =
      match ModInverse r p with
      | none => .err .rinv
      | some rinv =>
        match ModSqrt ((a ^ 3 % (p : Int) * (rinv : Int)) % (p : Int)).toNat p with
        | .null => .err .b
        | .panic => .panic
        | .diverge => .diverge
        | .root z =>
          if (a ^ 3 % (p : Int) * 4 + (a ^ 3 % (p : Int) * (rinv : Int)) % (p : Int) * 27)
              % (p : Int) = 0 then .err .singular
          else .ok ⟨(r : Int), (z : Int), (p : Int) - (z : Int)⟩ := by
  unfold PCurve
  rw [hr, Exp_three a hp]
  simp only []
  cases ModInverse r p with
  | none => rfl
  | some rinv =>
    simp only [Big.Mod]
    cases ModSqrt ((a ^ 3 % (p : Int) * (rinv : Int)) % (p : Int)).toNat p with
    | null => rfl
    | panic => rfl
    | diverge => rfl
    | root z =>
      simp only []
      by_cases hc : (a ^ 3 % (p : Int) * 4 + (a ^ 3 % (p : Int) * (rinv : Int)) % (p : Int) * 27)
          % (p : Int) = 0
      · rw [if_pos hc, if_pos ((isInt64_int64_zero _).mpr hc)]
      · rw [if_neg hc, if_neg (fun h => hc ((isInt64_int64_zero _).mp h))]

theorem two_pow_BitLen_le_self {p : Nat} (hp : p ≠ 0) : 2 ^ (BitLen p - 1) ≤ p :=
  two_pow_BitLen_le hp

theorem expandR_lt_self {p : Nat} (hp : p ≠ 0) {seed : List Nat} {r : Nat}
    (hr : expandR p seed = some r) : r < p :=
  lt_of_lt_of_le (expandR_lt (BitLen_pos hp) hr) (two_pow_BitLen_le hp)

theorem exists_expandR {p : Nat} (hp : p ≠ 0) (seed : List Nat) :
    ∃ r, expandR p seed = some r ∧ r < p := by
  have h := expandR_isSome (BitLen_pos hp) seed
  obtain ⟨r, hr⟩ := Option.isSome_iff_exists.mp h
  exact ⟨r, hr, expandR_lt_self hp hr⟩

end Generate

namespace Generate
open Big

variable {p : ℕ} [hp : Fact p.Prime]

theorem cast_rinv {r rinv : Nat} (h : ModInverse r p = some rinv) :
    (rinv : ZMod p) = (r : ZMod p)⁻¹ := by
  obtain ⟨-, h1⟩ := ModInverse_some hp.out.pos h
  have h2 : ((r * rinv : Nat) : ZMod p) = ((1 : Nat) : ZMod p) :=
    (ZMod.natCast_eq_natCast_iff' _ _ _).mpr h1
  rw [Nat.cast_mul, Nat.cast_one] at h2
  exact eq_inv_of_mul_eq_one_right h2

theorem cast_toNat_emod (x : Int) : (((x % (p : Int)).toNat : Nat) : ZMod p) = (x : ZMod p) := by
  have hpz : (p : Int) ≠ 0 := by exact_mod_cast hp.out.pos.ne'
  have h : (((x % (p : Int)).toNat : Nat) : Int) = x % (p : Int) :=
    Int.toNat_of_nonneg (Int.emod_nonneg _ hpz)
  rw [← Int.cast_natCast, h, ZMod.intCast_mod]

theorem toNat_emod_lt (x : Int) : (x % (p : Int)).toNat < p := by
  have hpz : (p : Int) ≠ 0 := by exact_mod_cast hp.out.pos.ne'
  have h1 := Int.emod_nonneg x hpz
  have h2 := Int.emod_lt_of_pos x (by exact_mod_cast hp.out.pos : (0 : Int) < p)
  omega

theorem emod_eq_zero_iff_cast (x : Int) : x % (p : Int) = 0 ↔ (x : ZMod p) = 0 := by
  rw [ZMod.intCast_zmod_eq_zero_iff_dvd]
  exact ⟨Int.dvd_of_emod_eq_zero, Int.emod_eq_zero_of_dvd⟩

/-- The four outcomes of `PCurve` on an odd prime modulus, by the conditions that select
them, stated in the field `ZMod p`. -/
theorem PCurve_prime_cases (hodd : p % 2 = 1) (a : Int) {seed : List Nat} {r : Nat}
    (hr : expandR p seed = some r) :
    (Nat.gcd r p ≠ 1 ∧ PCurve p a seed = .err .rinv) ∨
    (Nat.gcd r p = 1 ∧ ¬ IsSquare ((a : ZMod p) ^ 3 * (r : ZMod p)⁻¹) ∧
      PCurve p a seed = .err .b) ∨
    (Nat.gcd r p = 1 ∧ IsSquare ((a : ZMod p) ^ 3 * (r : ZMod p)⁻¹) ∧
      4 * (a : ZMod p) ^ 3 + 27 * ((a : ZMod p) ^ 3 * (r : ZMod p)⁻¹) = 0 ∧
      PCurve p a seed = .err .singular) ∨
    (Nat.gcd r p = 1 ∧ IsSquare ((a : ZMod p) ^ 3 * (r : ZMod p)⁻¹) ∧
      4 * (a : ZMod p) ^ 3 + 27 * ((a : ZMod p) ^ 3 * (r : ZMod p)⁻¹) ≠ 0 ∧
      ∃ z : Nat, z < p ∧ (z : ZMod p) ^ 2 = (a : ZMod p) ^ 3 * (r : ZMod p)⁻¹ ∧
        PCurve p a seed = .ok ⟨(r : Int), (z : Int), (p : Int) - (z : Int)⟩) := by
  have hp0 : 0 < p := hp.out.pos
  rw [PCurve_eval hp0 a hr]
  cases hi : ModInverse r p with
  | none => exact Or.inl ⟨(ModInverse_eq_none_iff r p).mp hi, rfl⟩
  | some rinv =>
    right
    have hg : Nat.gcd r p = 1 := by
      by_contra hc
      rw [(ModInverse_eq_none_iff r p).mpr hc] at hi
      cases hi
    simp only []
    have hcast : ((((a ^ 3 % (p : Int) * (rinv : Int)) % (p : Int)).toNat : Nat) : ZMod p) =
        (a : ZMod p) ^ 3 * (r : ZMod p)⁻¹ := by
      rw [cast_toNat_emod, Int.cast_mul, ZMod.intCast_mod, Int.cast_pow, Int.cast_natCast,
        cast_rinv hi]
    have hdisc : (a ^ 3 % (p : Int) * 4 + (a ^ 3 % (p : Int) * (rinv : Int)) % (p : Int) * 27)
        % (p : Int) = 0 ↔
        4 * (a : ZMod p) ^ 3 + 27 * ((a : ZMod p) ^ 3 * (r : ZMod p)⁻¹) = 0 := by
      rw [emod_eq_zero_iff_cast]
      simp only [Int.cast_add, Int.cast_mul, ZMod.intCast_mod, Int.cast_pow, Int.cast_natCast,
        Int.cast_ofNat, cast_rinv hi]
      constructor <;> intro h <;> rw [← h] <;> ring
    rcases ModSqrt_spec (p := p) (toNat_emod_lt (a ^ 3 % (p : Int) * (rinv : Int))) hodd with
      ⟨hns, hnull⟩ | ⟨hsq, z, hroot, hz, hzz⟩
    · left
      rw [hcast] at hns
      exact ⟨hg, hns, by rw [hnull]⟩
    · right
      rw [hcast] at hsq
      rw [hroot]
      simp only []
      have hz2 : (z : ZMod p) ^ 2 = (a : ZMod p) ^ 3 * (r : ZMod p)⁻¹ := by
        rw [← hcast, ← hzz, ZMod.natCast_mod, Nat.cast_mul, pow_two]
      by_cases hd : (a ^ 3 % (p : Int) * 4 + (a ^ 3 % (p : Int) * (rinv : Int)) % (p : Int) * 27)
          % (p : Int) = 0
      · left
        exact ⟨hg, hsq, hdisc.mp hd, by rw [if_pos hd]⟩
      · right
        exact ⟨hg, hsq, fun h => hd (hdisc.mpr h), z, hz, hz2, by rw [if_neg hd]⟩

end Generate

/-! ## The contract of `PCurve` on a prime modulus -/

namespace Generate
open Big

theorem PCurve_ok_odd {p : Nat} {a : Int} {seed : List Nat} {res : Result}
    (h : PCurve p a seed = .ok res) : p % 2 = 1 := by
  obtain ⟨r, a3, rinv, z, -, -, -, hs, -, -⟩ := PCurve_ok_inv h
  by_contra hc
  rw [ModSqrt_even (by omega)] at hs
  cases hs

theorem natCast_ne_zero_of_gcd {p : Nat} [hp : Fact p.Prime] {r : Nat} (hg : Nat.gcd r p = 1) :
    (r : ZMod p) ≠ 0 := by
  intro h0
  have hdvd : p ∣ r := (ZMod.natCast_zmod_eq_zero_iff_dvd r p).mp h0
  have : p ∣ 1 := hg ▸ Nat.dvd_gcd hdvd (dvd_refl p)
  exact hp.out.one_lt.ne' (Nat.dvd_one.mp this)

/-- A successful call on a prime modulus returns `r`, a reduced square root `z` of
`a^3 / r` in `ZMod p`, and `p - z`; the discriminant does not vanish. -/
theorem PCurve_ok_prime {p : Nat} [hp : Fact p.Prime] {a : Int} {seed : List Nat} {res : Result}
    (h : PCurve p a seed = .ok res) :
    ∃ r z : Nat, expandR p seed = some r ∧ (r : ZMod p) ≠ 0 ∧ z < p ∧
      (z : ZMod p) ^ 2 = (a : ZMod p) ^ 3 * (r : ZMod p)⁻¹ ∧
      4 * (a : ZMod p) ^ 3 + 27 * ((a : ZMod p) ^ 3 * (r : ZMod p)⁻¹) ≠ 0 ∧
      res = ⟨(r : Int), (z : Int), (p : Int) - (z : Int)⟩ := by
  have hodd := PCurve_ok_odd h
  obtain ⟨r, hr, -⟩ := exists_expandR hp.out.pos.ne' seed
  rcases PCurve_prime_cases hodd a hr with ⟨-, he⟩ | ⟨-, -, he⟩ | ⟨-, -, -, he⟩ |
    ⟨hg, -, hd, z, hz, hz2, hok⟩
  · rw [he] at h; cases h
  · rw [he] at h; cases h
  · rw [he] at h; cases h
  · rw [hok] at h
    cases h
    exact ⟨r, z, hr, natCast_ne_zero_of_gcd hg, hz, hz2, hd, rfl⟩

/-- C1: for a prime modulus `p`, a successful `PCurve(p, a, seed)` returns `R`, `B1`, `B2` with
`(R*B1^2) mod p = a^3 mod p`, `(R*B2^2) mod p = a^3 mod p` and `B2 = p - B1`. -/
theorem C1_result_solves_equation (p : Nat) (hp : p.Prime) (a : Int) (seed : List Nat)
    (res : Result) (h : PCurve p a seed = .ok res) :
    (res.R * res.B1 ^ 2) % (p : Int) = a ^ 3 % (p : Int) ∧
      (res.R * res.B2 ^ 2) % (p : Int) = a ^ 3 % (p : Int) ∧
      res.B2 = (p : Int) - res.B1 := by
  haveI : Fact p.Prime := ⟨hp⟩
  obtain ⟨r, z, -, hr0, -, hz2, -, rfl⟩ := PCurve_ok_prime h
  have key : (r : ZMod p) * (z : ZMod p) ^ 2 = (a : ZMod p) ^ 3 := by
    rw [hz2, mul_comm ((a : ZMod p) ^ 3), ← mul_assoc, mul_inv_cancel₀ hr0, one_mul]
  refine ⟨?_, ?_, rfl⟩
  · apply (ZMod.intCast_eq_intCast_iff' _ _ p).mp
    push_cast
    exact key
  · apply (ZMod.intCast_eq_intCast_iff' _ _ p).mp
    push_cast
    rw [ZMod.natCast_self, zero_sub, neg_sq]
    exact key

/-- C1, at `p = 29`, `a = 2` and the one-byte seed `05`. -/
theorem C1_result_solves_equation_witness :
    PCurve 29 2 [5] = .ok ⟨11, 8, 21⟩ ∧
      ((11 : Int) * 8 ^ 2) % 29 = 2 ^ 3 % 29 ∧ ((11 : Int) * 21 ^ 2) % 29 = 2 ^ 3 % 29 ∧
      (21 : Int) = 29 - 8 :=
  ⟨by decide!, C1_result_solves_equation 29 (by norm_num) 2 [5] ⟨11, 8, 21⟩ (by decide!)⟩

/-- C2: for a prime modulus `p`, a successful `PCurve(p, a, seed)` returns roots of a
non-singular curve: `(4*a^3 + 27*B1^2) mod p` and `(4*a^3 + 27*B2^2) mod p` are not 0. -/
theorem C2_result_nonsingular (p : Nat) (hp : p.Prime) (a : Int) (seed : List Nat)
    (res : Result) (h : PCurve p a seed = .ok res) :
    (4 * a ^ 3 + 27 * res.B1 ^ 2) % (p : Int) ≠ 0 ∧
      (4 * a ^ 3 + 27 * res.B2 ^ 2) % (p : Int) ≠ 0 := by
  haveI : Fact p.Prime := ⟨hp⟩
  obtain ⟨r, z, -, -, -, hz2, hd, rfl⟩ := PCurve_ok_prime h
  constructor
  · intro h0
    apply hd
    have := (emod_eq_zero_iff_cast _).mp h0
    push_cast at this
    rw [← hz2]
    exact this
  · intro h0
    apply hd
    have := (emod_eq_zero_iff_cast _).mp h0
    push_cast at this
    rw [ZMod.natCast_self, zero_sub, neg_sq] at this
    rw [← hz2]
    exact this

/-- C2, at `p = 41`, `a = 3` and the one-byte seed `02`. -/
theorem C2_result_nonsingular_witness :
    PCurve 41 3 [2] = .ok ⟨14, 32, 9⟩ ∧
      ((4 : Int) * 3 ^ 3 + 27 * 32 ^ 2) % 41 ≠ 0 ∧ ((4 : Int) * 3 ^ 3 + 27 * 9 ^ 2) % 41 ≠ 0 :=
  ⟨by decide!, C2_result_nonsingular 41 (by norm_num) 3 [2] ⟨14, 32, 9⟩ (by decide!)⟩

end Generate

namespace Generate
open Big

/-- C3: for an odd prime `p`, with `r` the value expanded from the seed, `PCurve` fails with the
r-inverse error iff `gcd(r, p) ≠ 1`; otherwise with the error on `b` iff `a^3 * r^-1` is not a
square modulo `p`; otherwise with the singular-curve error iff `4*a^3 + 27*a^3*r^-1` vanishes
modulo `p`; otherwise it succeeds.  The three errors have distinct messages, every error wraps
`ErrBadSeed`, and the errors on `a^3` and on `b^2` are never returned. -/
theorem C3_failures_in_order (p : Nat) (hp : p.Prime) (hodd : p % 2 = 1) (a : Int)
    (seed : List Nat) :
    ∃ r : Nat, expandR p seed = some r ∧
      (PCurve p a seed = .err .rinv ↔ Nat.gcd r p ≠ 1) ∧
      (Nat.gcd r p = 1 →
        (PCurve p a seed = .err .b ↔ ¬ IsSquare ((a : ZMod p) ^ 3 * (r : ZMod p)⁻¹))) ∧
      (Nat.gcd r p = 1 → IsSquare ((a : ZMod p) ^ 3 * (r : ZMod p)⁻¹) →
        (PCurve p a seed = .err .singular ↔
          4 * (a : ZMod p) ^ 3 + 27 * ((a : ZMod p) ^ 3 * (r : ZMod p)⁻¹) = 0)) ∧
      (Nat.gcd r p = 1 → IsSquare ((a : ZMod p) ^ 3 * (r : ZMod p)⁻¹) →
        4 * (a : ZMod p) ^ 3 + 27 * ((a : ZMod p) ^ 3 * (r : ZMod p)⁻¹) ≠ 0 →
        ∃ res, PCurve p a seed = .ok res) ∧
      PCurve p a seed ≠ .err .a3 ∧ PCurve p a seed ≠ .err .b2 ∧
      PCurve p a seed ≠ .panic ∧ PCurve p a seed ≠ .diverge ∧
      BadSeed.rinv.message ≠ BadSeed.b.message ∧
      BadSeed.rinv.message ≠ BadSeed.singular.message ∧
      BadSeed.b.message ≠ BadSeed.singular.message ∧
      ∀ e : BadSeed, ∃ detail, e.message = ErrBadSeed ++ ": " ++ detail := by
  haveI : Fact p.Prime := ⟨hp⟩
  obtain ⟨r, hr, -⟩ := exists_expandR hp.pos.ne' seed
  refine ⟨r, hr, ?_, ?_, ?_, ?_, ?_, ?_, ?_, ?_, by decide, by decide, by decide, ?_⟩
  · rcases PCurve_prime_cases hodd a hr with ⟨hg, he⟩ | ⟨hg, -, he⟩ | ⟨hg, -, -, he⟩ |
      ⟨hg, -, -, z, -, -, he⟩ <;> rw [he] <;> simp [hg]
  · intro hg1
    rcases PCurve_prime_cases hodd a hr with ⟨hg, he⟩ | ⟨hg, hs, he⟩ | ⟨hg, hs, -, he⟩ |
      ⟨hg, hs, -, z, -, -, he⟩ <;> rw [he]
    · exact absurd hg1 hg
    · simp [hs]
    · simp [hs]
    · simp [hs]
  · intro hg1 hsq
    rcases PCurve_prime_cases hodd a hr with ⟨hg, he⟩ | ⟨hg, hs, he⟩ | ⟨hg, hs, hd, he⟩ |
      ⟨hg, hs, hd, z, -, -, he⟩ <;> rw [he]
    · exact absurd hg1 hg
    · exact absurd hsq hs
    · simp [hd]
    · simp [hd]
  · intro hg1 hsq hd1
    rcases PCurve_prime_cases hodd a hr with ⟨hg, he⟩ | ⟨hg, hs, he⟩ | ⟨hg, hs, hd, he⟩ |
      ⟨hg, hs, hd, z, -, -, he⟩
    · exact absurd hg1 hg
    · exact absurd hsq hs
    · exact absurd hd hd1
    · exact ⟨_, he⟩
  · rcases PCurve_prime_cases hodd a hr with ⟨-, he⟩ | ⟨-, -, he⟩ | ⟨-, -, -, he⟩ |
      ⟨-, -, -, z, -, -, he⟩ <;> rw [he] <;> simp
  · rcases PCurve_prime_cases hodd a hr with ⟨-, he⟩ | ⟨-, -, he⟩ | ⟨-, -, -, he⟩ |
      ⟨-, -, -, z, -, -, he⟩ <;> rw [he] <;> simp
  · rcases PCurve_prime_cases hodd a hr with ⟨-, he⟩ | ⟨-, -, he⟩ | ⟨-, -, -, he⟩ |
      ⟨-, -, -, z, -, -, he⟩ <;> rw [he] <;> simp
  · rcases PCurve_prime_cases hodd a hr with ⟨-, he⟩ | ⟨-, -, he⟩ | ⟨-, -, -, he⟩ |
      ⟨-, -, -, z, -, -, he⟩ <;> rw [he] <;> simp
  · intro e
    cases e
    · exact ⟨"error computing a^3", by decide⟩
    · exact ⟨"error computing r-inverse", by decide⟩
    · exact ⟨"error computing b^2", by decide⟩
    · exact ⟨"error computing b", by decide⟩
    · exact ⟨"4a^3 + 27b^2 ≡ 0 (mod p)", by decide⟩

/-- C3, at `p = 29`, `a = 2` and the one-byte seed `03`, where the error on `b` is returned. -/
theorem C3_failures_in_order_witness :
    Nat.Prime 29 ∧ 29 % 2 = 1 ∧ PCurve 29 2 [3] = .err .b ∧
      ∃ r : Nat, expandR 29 [3] = some r ∧ (PCurve 29 2 [3] = .err .rinv ↔ Nat.gcd r 29 ≠ 1) :=
  ⟨by norm_num, by decide, by decide!,
    (C3_failures_in_order 29 (by norm_num) (by decide) 2 [3]).imp fun _ h => ⟨h.1, h.2.1⟩⟩

end Generate

/-! ## The vectors of `TestPCurve` -/

namespace Generate
open Big

theorem pcurve_P192 :
    PCurve pP192 aP192 seedP192 = .ok ⟨rP192, bP192, (pP192 : Int) - bP192⟩ := by
  decide!

theorem pcurve_P224 :
    PCurve pP224 aP224 seedP224 = .ok ⟨rP224, (pP224 : Int) - bP224, bP224⟩ := by
  decide!

theorem pcurve_P256 :
    PCurve pP256 aP256 seedP256 = .ok ⟨rP256, bP256, (pP256 : Int) - bP256⟩ := by
  decide!

theorem pcurve_P384 :
    PCurve pP384 aP384 seedP384 = .ok ⟨rP384, bP384, (pP384 : Int) - bP384⟩ := by
  decide!

theorem pcurve_P521 :
    PCurve pP521 aP521 seedP521 = .ok ⟨rP521, bP521, (pP521 : Int) - bP521⟩ := by
  decide!

/-- C4: on each of the five NIST vectors of `TestPCurve`, `PCurve` succeeds and its `R` is the
published `r`. -/
theorem C4_nist_vectors_r :
    (∃ res, PCurve pP192 aP192 seedP192 = .ok res ∧ res.R = rP192) ∧
      (∃ res, PCurve pP224 aP224 seedP224 = .ok res ∧ res.R = rP224) ∧
      (∃ res, PCurve pP256 aP256 seedP256 = .ok res ∧ res.R = rP256) ∧
      (∃ res, PCurve pP384 aP384 seedP384 = .ok res ∧ res.R = rP384) ∧
      (∃ res, PCurve pP521 aP521 seedP521 = .ok res ∧ res.R = rP521) ∧
      rP192 = 0x3099D2BBBFCB2538542DCD5FB078B6EF5F3D6FE2C745DE65 :=
  ⟨⟨_, pcurve_P192, rfl⟩, ⟨_, pcurve_P224, rfl⟩, ⟨_, pcurve_P256, rfl⟩, ⟨_, pcurve_P384, rfl⟩,
    ⟨_, pcurve_P521, rfl⟩, rfl⟩

/-- C5: on each of the five NIST vectors of `TestPCurve`, `PCurve` succeeds and `B1` or `B2`
is the published `b`; on P-224 the roots are `4BFAF57A...` and the published, larger
`B4050A85...`. -/
theorem C5_nist_vectors_b :
    (∃ res, PCurve pP192 aP192 seedP192 = .ok res ∧ (res.B1 = bP192 ∨ res.B2 = bP192)) ∧
      (∃ res, PCurve pP224 aP224 seedP224 = .ok res ∧ (res.B1 = bP224 ∨ res.B2 = bP224)) ∧
      (∃ res, PCurve pP256 aP256 seedP256 = .ok res ∧ (res.B1 = bP256 ∨ res.B2 = bP256)) ∧
      (∃ res, PCurve pP384 aP384 seedP384 = .ok res ∧ (res.B1 = bP384 ∨ res.B2 = bP384)) ∧
      (∃ res, PCurve pP521 aP521 seedP521 = .ok res ∧ (res.B1 = bP521 ∨ res.B2 = bP521)) ∧
      (∃ res, PCurve pP224 aP224 seedP224 = .ok res ∧
        res.B1 = 0x4BFAF57AF3FB4C540ABECDA9AFBB4F4728402745D8F4C6BCDCAA004D ∧
        res.B2 = 0xB4050A850C04B3ABF54132565044B0B7D7BFD8BA270B39432355FFB4 ∧
        res.B1 < res.B2) :=
  ⟨⟨_, pcurve_P192, Or.inl rfl⟩, ⟨_, pcurve_P224, Or.inr rfl⟩, ⟨_, pcurve_P256, Or.inl rfl⟩,
    ⟨_, pcurve_P384, Or.inl rfl⟩, ⟨_, pcurve_P521, Or.inl rfl⟩,
    ⟨_, pcurve_P224, by decide!, by decide!, by decide!⟩⟩

end Generate

/-! ## The expansion: size, safety, determinism -/

namespace Generate
open Big

/-- C6 fails as stated: on the P-192 vector of `TestPCurve` the call succeeds with the
published `r = 3099D2BB...`, of 190 bits, while the modulus has 192. -/
theorem C6_counterexample :
    (∃ res, PCurve pP192 aP192 seedP192 = .ok res ∧ res.R = rP192 ∧
      BitLen res.R.natAbs = 190) ∧ BitLen pP192 = 192 :=
  ⟨⟨_, pcurve_P192, rfl, by decide!⟩, by decide!⟩

/-- C6, amended: for a modulus of bit length `L ≥ 1` the expansion yields a value `r` of bit
length at most `L - 1`, and `r` is the `R` of every successful call. -/
theorem C6_r_BitLen_le (p : Nat) (seed : List Nat) (hL : 1 ≤ BitLen p) :
    ∃ r : Nat, expandR p seed = some r ∧ BitLen r ≤ BitLen p - 1 ∧
      ∀ (a : Int) (res : Result), PCurve p a seed = .ok res → res.R = (r : Int) := by
  obtain ⟨r, hr⟩ := Option.isSome_iff_exists.mp (expandR_isSome hL seed)
  refine ⟨r, hr, (BitLen_le_iff _ _).mpr (expandR_lt hL hr), ?_⟩
  intro a res h
  obtain ⟨r', hr', hR⟩ := PCurve_ok_expandR h
  rw [hr] at hr'
  cases hr'
  exact hR

/-- C6 amended, at the modulus 7 (three bits) and the seed `01 02 01`, where `r = 1`. -/
theorem C6_r_BitLen_le_witness :
    1 ≤ BitLen 7 ∧ expandR 7 [1, 2, 1] = some 1 ∧
      ∃ r : Nat, expandR 7 [1, 2, 1] = some r ∧ BitLen r ≤ BitLen 7 - 1 ∧
        ∀ (a : Int) (res : Result), PCurve 7 a [1, 2, 1] = .ok res → res.R = (r : Int) :=
  ⟨by decide, by decide!, C6_r_BitLen_le 7 [1, 2, 1] (by decide)⟩

/-- C7: for a modulus of bit length `L ≥ 1` the expansion computes `ceil(L/160)` digests, one
for `W_0` and `sCount = floor((L-1)/160)` more, and the buffer it converts has
`8*(hBytes + 20*sCount)` bits, at least `L` and fewer than `L + 8`. -/
theorem C7_blocks_and_buffer (p : Nat) (seed : List Nat) (hL : 1 ≤ BitLen p) :
    (digests p seed).length = (BitLen p + 159) / 160 ∧
      (digests p seed).length = 1 + (wBlocks p seed).length ∧
      sCount p = (((BitLen p - 1) / 160 : Nat) : Int) ∧
      ((wBlocks p seed).length : Int) = sCount p ∧
      ∃ buf, rBuf p seed = some buf ∧
        (8 * buf.length : Int) = 8 * (hBytes p + 20 * sCount p) ∧
        BitLen p ≤ 8 * buf.length ∧ 8 * buf.length < BitLen p + 8 := by
  have hs := sCount_eq hL
  have hb := hBits_range hL
  have hB := hBytes_eq hL
  have hbits : hBits p = (BitLen p : Int) - 160 * sCount p := rfl
  have hlen : (wBlocks p seed).length = (BitLen p - 1) / 160 := by
    rw [wBlocks_length, hs, Int.toNat_ofNat]
  refine ⟨?_, ?_, hs, ?_, ?_⟩
  · simp only [digests, List.length_cons, hlen]; omega
  · simp only [digests, List.length_cons]; omega
  · rw [hlen, hs]
  · obtain ⟨w, hw⟩ := Option.isSome_iff_exists.mp (w0_isSome hL seed)
    have hwl := w0_length hL hw
    refine ⟨_, rBuf_eq hw, ?_, ?_, ?_⟩
    · rw [List.length_append, wBlocks_flatten_length]
      push_cast
      rw [hwl, Int.toNat_of_nonneg (by omega)]
    · rw [List.length_append, wBlocks_flatten_length]; omega
    · rw [List.length_append, wBlocks_flatten_length]; omega

/-- C7, at the modulus of the P-521 vector: four digests and a buffer of 66 bytes. -/
theorem C7_blocks_and_buffer_witness :
    1 ≤ BitLen pP521 ∧ (digests pP521 seedP521).length = (BitLen pP521 + 159) / 160 ∧
      (digests pP521 seedP521).length = 4 :=
  ⟨by decide!, (C7_blocks_and_buffer pP521 seedP521 (by decide!)).1, by decide!⟩

/-- C8: for a seed of any length and a modulus of bit length at least 1 the expansion never
panics: `1 ≤ hBits ≤ 160`, `1 ≤ hBytes ≤ 20`, the slice `w0Buf[20-hBytes:]` is in range and not
empty, every index `i` of the masking loop has `0 ≤ 7 - i ≤ 7`, and each step of the loop and
the whole expansion return a value. -/
theorem C8_expansion_total (p : Nat) (seed : List Nat) (hL : 1 ≤ BitLen p) :
    (1 ≤ hBits p ∧ hBits p ≤ 160) ∧ (1 ≤ hBytes p ∧ hBytes p ≤ 20) ∧
      (∃ w, sliceFrom (Sha1.Sum seed) (20 - hBytes p) = some w ∧ w ≠ [] ∧
        ∀ i : Nat, (i : Int) ≤ Int.tmod (160 - hBits p) 8 →
          (0 ≤ 7 - (i : Int) ∧ 7 - (i : Int) ≤ 7) ∧ (maskStep w i).isSome = true) ∧
      (w0 p seed).isSome = true ∧ (expandR p seed).isSome = true := by
  have hb := hBits_range hL
  have hB := hBytes_range hL
  have hm := maskBound_range hL
  refine ⟨hb, hB, ?_, w0_isSome hL seed, expandR_isSome hL seed⟩
  obtain ⟨b, rest, hbr, -, -⟩ := w0_spec hL seed
  refine ⟨b :: rest, ?_, List.cons_ne_nil _ _, ?_⟩
  · unfold sliceFrom
    rw [if_pos ⟨by omega, by rw [Sha1.Sum_length]; omega⟩, hbr]
  · intro i hi
    refine ⟨by omega, ?_⟩
    have h7 : ¬ 7 < i := by omega
    simp only [maskStep, if_neg h7]
    rfl

/-- C8, at the modulus 1 (one bit) and the empty seed. -/
theorem C8_expansion_total_witness :
    1 ≤ BitLen 1 ∧ (expandR 1 []).isSome = true :=
  ⟨by decide, (C8_expansion_total 1 [] (by decide)).2.2.2.2⟩

/-- C9: the value `r` depends on the seed and on the bit length of the modulus alone: two
moduli of equal bit length expand the same `r` from a seed, two successful calls on them return
the same `R`, whatever `a` is, and a call is a function of its arguments. -/
theorem C9_r_depends_on_seed_and_BitLen (p q : Nat) (a b : Int) (seed : List Nat)
    (hL : BitLen p = BitLen q) :
    expandR p seed = expandR q seed ∧
      (∀ res res', PCurve p a seed = .ok res → PCurve q b seed = .ok res' → res.R = res'.R) ∧
      ∀ o o', PCurve p a seed = o → PCurve p a seed = o' → o = o' := by
  refine ⟨expandR_congr hL seed, ?_, ?_⟩
  · intro res res' h h'
    obtain ⟨r, hr, hR⟩ := PCurve_ok_expandR h
    obtain ⟨r', hr', hR'⟩ := PCurve_ok_expandR h'
    rw [expandR_congr hL seed, hr'] at hr
    cases hr
    rw [hR, hR']
  · intro o o' h h'
    rw [← h, ← h']

/-- C9, at the moduli 5 and 7 (three bits each) with `a = 1` and `a = 2` and the seed `03`:
both calls succeed with `R = 1`. -/
theorem C9_r_depends_on_seed_and_BitLen_witness :
    BitLen 5 = BitLen 7 ∧ PCurve 5 1 [3] = .ok ⟨1, 1, 4⟩ ∧ PCurve 7 2 [3] = .ok ⟨1, 1, 6⟩ ∧
      expandR 5 [3] = expandR 7 [3] :=
  ⟨by decide, by decide!, by decide!,
    (C9_r_depends_on_seed_and_BitLen 5 7 1 2 [3] (by decide)).1⟩

end Generate

/-! ## The candidate seeds of `doSearch` -/

namespace Seedsearch
open Big

/-- C10 fails as stated: for the start seed `01` and the offset `-2` (inside a margin of 2) the
candidate is `01`, which reads as 1, while `int(S) + i = -1`. -/
theorem C10_counterexample :
    -(2 : Int) ≤ -2 ∧ (-2 : Int) ≤ 2 ∧ addToSeed [1] (-2) = [1] ∧
      (SetBytes (addToSeed [1] (-2)) : Int) ≠ (SetBytes [1] : Int) + (-2) := by
  decide

/-- C10, amended: the candidate `addToSeed(S, i)`, read as a big-endian unsigned integer, is
`|int(S) + i|`; it is `int(S) + i` whenever that sum is not negative. -/
theorem C10_addToSeed_value (S : List Nat) (i : Int) :
    (SetBytes (addToSeed S i) : Int) = |(SetBytes S : Int) + i| ∧
      (0 ≤ (SetBytes S : Int) + i → (SetBytes (addToSeed S i) : Int) = (SetBytes S : Int) + i) := by
  have h : (SetBytes (addToSeed S i) : Int) = |(SetBytes S : Int) + i| := by
    unfold addToSeed
    rw [SetBytes_Bytes, Int.natCast_natAbs]
  exact ⟨h, fun h0 => by rw [h, abs_of_nonneg h0]⟩

end Seedsearch

/-! ## Minimal big-endian encodings -/

namespace Big

theorem beBytes_congr (j k n m : Nat) (hj : j ≤ k) (h : n % 256 ^ k = m % 256 ^ k) :
    Sha1.beBytes j n = Sha1.beBytes j m := by
  induction j with
  | zero => rfl
  | succ j ih =>
    simp only [Sha1.beBytes]
    rw [ih (by omega)]
    congr 1
    have h8 : 2 ^ (8 * j) = 256 ^ j := by rw [pow_mul]; norm_num
    have hdvd : 256 ^ (j + 1) ∣ 256 ^ k := pow_dvd_pow 256 hj
    have h1 : n % 256 ^ (j + 1) = m % 256 ^ (j + 1) := by
      rw [← Nat.mod_mod_of_dvd n hdvd, ← Nat.mod_mod_of_dvd m hdvd, h]
    rw [Nat.shiftRight_eq_div_pow, Nat.shiftRight_eq_div_pow, h8,
      ← Nat.mod_mul_right_div_self, ← Nat.mod_mul_right_div_self, ← pow_succ, h1]

theorem beBytes_SetBytes (l : List Nat) (h : ∀ b ∈ l, b < 256) :
    Sha1.beBytes l.length (SetBytes l) = l := by
  induction l with
  | nil => rfl
  | cons b rest ih =>
    have hb : b < 256 := h b (List.mem_cons_self _ _)
    have hrest : ∀ c ∈ rest, c < 256 := fun c hc => h c (List.mem_cons_of_mem _ hc)
    have hR := SetBytes_lt rest hrest
    have h8 : 2 ^ (8 * rest.length) = 256 ^ rest.length := by rw [pow_mul]; norm_num
    have hpos : 0 < 256 ^ rest.length := by positivity
    rw [List.length_cons, Sha1.beBytes, SetBytes_cons]
    congr 1
    · rw [Nat.shiftRight_eq_div_pow, h8, Nat.add_comm, Nat.add_mul_div_right _ _ hpos,
        Nat.div_eq_of_lt hR, Nat.zero_add, Nat.mod_eq_of_lt hb]
    · rw [beBytes_congr rest.length rest.length _ (SetBytes rest) le_rfl
        (by rw [Nat.add_comm, Nat.add_mul_mod_self_right]), ih hrest]

theorem Bytes_zero : Bytes 0 = [] := rfl

theorem SetBytes_zero_cons (l : List Nat) : SetBytes (0 :: l) = SetBytes l := by
  rw [SetBytes_cons]; simp

/-- A byte string that does not start with a zero byte is the encoding of its value. -/
theorem Bytes_SetBytes_cons (b : Nat) (rest : List Nat) (hb : b ≠ 0)
    (h : ∀ c ∈ b :: rest, c < 256) : Bytes (SetBytes (b :: rest)) = b :: rest := by
  have hb2 : b < 256 := h b (List.mem_cons_self _ _)
  have hrest : ∀ c ∈ rest, c < 256 := fun c hc => h c (List.mem_cons_of_mem _ hc)
  have hR := SetBytes_lt rest hrest
  have h8 : ∀ k, 2 ^ (8 * k) = 256 ^ k := fun k => by rw [pow_mul]; norm_num
  have hlo : 256 ^ rest.length ≤ SetBytes (b :: rest) := by
    rw [SetBytes_cons]
    calc 256 ^ rest.length = 1 * 256 ^ rest.length := (one_mul _).symm
      _ ≤ b * 256 ^ rest.length := Nat.mul_le_mul_right _ (by omega)
      _ ≤ _ := Nat.le_add_right _ _
  have hhi : SetBytes (b :: rest) < 256 ^ (rest.length + 1) := by
    have := SetBytes_lt (b :: rest) h
    simpa using this
  have h1 : BitLen (SetBytes (b :: rest)) ≤ 8 * (rest.length + 1) := by
    rw [BitLen_le_iff, h8]; exact hhi
  have h2 : ¬ BitLen (SetBytes (b :: rest)) ≤ 8 * rest.length := by
    rw [BitLen_le_iff, h8]; omega
  have hk : (BitLen (SetBytes (b :: rest)) + 7) / 8 = (b :: rest).length := by
    rw [List.length_cons]; omega
  unfold Bytes
  rw [hk, beBytes_SetBytes _ h]

/-- The encoding of the value of a byte string is the string without its leading zero
bytes. -/
theorem Bytes_SetBytes (l : List Nat) (h : ∀ c ∈ l, c < 256) :
    Bytes (SetBytes l) = l.dropWhile (fun c => c == 0) := by
  induction l with
  | nil => rfl
  | cons b rest ih =>
    by_cases hb : b = 0
    · subst hb
      rw [SetBytes_zero_cons, ih (fun c hc => h c (List.mem_cons_of_mem _ hc)),
        List.dropWhile_cons]
      simp
    · rw [Bytes_SetBytes_cons b rest hb h, List.dropWhile_cons]
      simp [hb]

theorem SetBytes_replicate_zero_append (z : Nat) (l : List Nat) :
    SetBytes (List.replicate z 0 ++ l) = SetBytes l := by
  induction z with
  | zero => rfl
  | succ z ih => rw [List.replicate_succ, List.cons_append, SetBytes_zero_cons, ih]

end Big

namespace Seedsearch
open Big

/-- C11 fails as stated: for the start seed `00 01` the zero-offset candidate is `01`. -/
theorem C11_counterexample : addToSeed [0, 1] 0 = [1] ∧ addToSeed [0, 1] 0 ≠ [0, 1] := by
  decide

/-- C11, amended: for a start seed `S` (of bytes) the zero-offset candidate `addToSeed(S, 0)`
is `S` without its leading zero bytes; it is `S` itself, byte for byte, exactly when `S` does
not begin with a zero byte. -/
theorem C11_addToSeed_zero (S : List Nat) (hS : ∀ b ∈ S, b < 256) :
    addToSeed S 0 = S.dropWhile (fun b => b == 0) ∧
      (addToSeed S 0 = S ↔ S.head? ≠ some 0) := by
  have h : addToSeed S 0 = S.dropWhile (fun b => b == 0) := by
    unfold addToSeed
    rw [add_zero, Int.natAbs_ofNat, Bytes_SetBytes S hS]
  refine ⟨h, ?_⟩
  rw [h]
  cases S with
  | nil => simp
  | cons b rest =>
    by_cases hb : b = 0
    · subst hb
      rw [List.dropWhile_cons]
      simp only [beq_self_eq_true, if_true, List.head?_cons, ne_eq, not_true_eq_false,
        iff_false]
      intro heq
      have hl := congrArg List.length heq
      have := (List.dropWhile_suffix (fun b => b == 0) (l := rest)).length_le
      simp only [List.length_cons] at hl
      omega
    · rw [List.dropWhile_cons]
      simp [hb]

/-- C11 amended, at the seed of the P-192 vector: the zero-offset candidate is the seed. -/
theorem C11_addToSeed_zero_witness :
    (∀ b ∈ Generate.seedP192, b < 256) ∧ addToSeed Generate.seedP192 0 = Generate.seedP192 :=
  ⟨by decide, by
    rw [(C11_addToSeed_zero Generate.seedP192 (by decide)).1]
    decide⟩

end Seedsearch

/-! ## The loop of `doSearch` -/

namespace Generate
open Big

/-- On an odd prime modulus every call of `PCurve` returns: a result or an error. -/
theorem PCurve_returns_of_prime {p : Nat} (hp : p.Prime) (hodd : p % 2 = 1) (a : Int)
    (seed : List Nat) : PCurve p a seed ≠ .panic ∧ PCurve p a seed ≠ .diverge := by
  haveI : Fact p.Prime := ⟨hp⟩
  obtain ⟨r, hr, -⟩ := exists_expandR hp.pos.ne' seed
  rcases PCurve_prime_cases hodd a hr with ⟨-, he⟩ | ⟨-, -, he⟩ | ⟨-, -, -, he⟩ |
    ⟨-, -, -, z, -, -, he⟩ <;> rw [he] <;> simp

end Generate

namespace Seedsearch
open Big Generate

theorem wrapInt_of_range {x : Int} (h1 : -(2 : Int) ^ 63 ≤ x) (h2 : x < 2 ^ 63) :
    wrapInt x = x := by
  unfold wrapInt
  norm_num at h1 h2 ⊢
  omega

theorem wrapInt_le (x : Int) : wrapInt x ≤ 2 ^ 63 - 1 := by
  unfold wrapInt
  norm_num
  omega

/-- The test of the loop of `doSearch` fails: the statement `return nil` is reached. -/
theorem searchLoop_exit (p : Nat) (a : Int) (start : List Nat) (margin : Int) (fuel : Nat)
    (i : Int) (h : ¬ i ≤ margin) :
    searchLoop p a start margin (fuel + 1) i = ([], .retNil) := by
  show (if i ≤ margin then _ else _) = _
  exact if_neg h

/-- One turn of the loop of `doSearch`. -/
theorem searchLoop_turn (p : Nat) (a : Int) (start : List Nat) (margin : Int) (fuel : Nat)
    (i : Int) (h : i ≤ margin) :
    searchLoop p a start margin (fuel + 1) i =
      match Generate.PCurve p a (addToSeed start i) with
      | .panic => ([], .panic)
      | .diverge => ([], .diverge)
      | .err e =>
        (⟨i, addToSeed start i, i == 0, some e⟩ ::
            (searchLoop p a start margin fuel (wrapInt (i + 1))).1,
          (searchLoop p a start margin fuel (wrapInt (i + 1))).2)
      | .ok _ =>
        (⟨i, addToSeed start i, i == 0, none⟩ ::
            (searchLoop p a start margin fuel (wrapInt (i + 1))).1,
          (searchLoop p a start margin fuel (wrapInt (i + 1))).2) := by
  show (if i ≤ margin then _ else _) = _
  exact if_pos h

theorem err_row (o : Outcome) (e : BadSeed) (h : o = .err e) :
    ((some e : Option BadSeed) = none ↔ ∃ res, o = .ok res) ∧
      ∀ e', (some e : Option BadSeed) = some e' ↔ o = .err e' := by
  subst h
  simp

theorem ok_row (o : Outcome) (res : Result) (h : o = .ok res) :
    ((none : Option BadSeed) = none ↔ ∃ res, o = .ok res) ∧
      ∀ e', (none : Option BadSeed) = some e' ↔ o = .err e' := by
  subst h
  simp

theorem range_succ_map_add (i : Int) (n : Nat) :
    (List.range (n + 1)).map (fun (k : Nat) => i + (k : Int)) =
      i :: (List.range n).map (fun (k : Nat) => i + 1 + (k : Int)) := by
  rw [List.range_succ_eq_map, List.map_cons, List.map_map]
  congr 1
  · simp
  · apply List.map_congr_left
    intro k _
    simp only [Function.comp_apply, Nat.cast_succ]
    ring

/-- When every call of `PCurve` returns and the loop variable stays below the largest `int`,
the loop started at `i` with `n` values of `i` left up to `margin` prints one row for each of
them, in ascending order, and reaches `return nil`. -/
theorem searchLoop_of_returns (p : Nat) (a : Int) (start : List Nat) (margin : Int)
    (hmax : margin < 2 ^ 63 - 1) (n : Nat) :
    ∀ (fuel : Nat) (i : Int), -(2 : Int) ^ 63 ≤ i → margin + 1 - i = (n : Int) → n < fuel →
      (∀ j : Int, i ≤ j → j ≤ margin → PCurve p a (addToSeed start j) ≠ .panic ∧
        PCurve p a (addToSeed start j) ≠ .diverge) →
      (searchLoop p a start margin fuel i).2 = .retNil ∧
      (searchLoop p a start margin fuel i).1.map Row.offset =
        (List.range n).map (fun (k : Nat) => i + (k : Int)) ∧
      ∀ row ∈ (searchLoop p a start margin fuel i).1,
        row.seed = addToSeed start row.offset ∧ row.highlighted = (row.offset == 0) ∧
        (row.err = none ↔ ∃ res, PCurve p a row.seed = .ok res) ∧
        ∀ e, row.err = some e ↔ PCurve p a row.seed = .err e := by
  induction n with
  | zero =>
    intro fuel i _ hn hf _
    obtain ⟨f, rfl⟩ : ∃ f, fuel = f + 1 := ⟨fuel - 1, by omega⟩
    rw [searchLoop_exit p a start margin f i (by omega)]
    exact ⟨rfl, rfl, fun row hrow => by cases hrow⟩
  | succ n ih =>
    intro fuel i hi hn hf h
    obtain ⟨f, rfl⟩ : ∃ f, fuel = f + 1 := ⟨fuel - 1, by omega⟩
    have hle : i ≤ margin := by omega
    have hw : wrapInt (i + 1) = i + 1 :=
      wrapInt_of_range (by omega) (by norm_num at hmax ⊢; omega)
    obtain ⟨ih1, ih2, ih3⟩ := ih f (i + 1) (by omega) (by push_cast at hn; omega) (by omega)
      (fun j hj1 hj2 => h j (by omega) hj2)
    obtain ⟨hp1, hp2⟩ := h i le_rfl hle
    rw [searchLoop_turn p a start margin f i hle, hw, range_succ_map_add]
    cases ho : PCurve p a (addToSeed start i) with
    | panic => exact absurd ho hp1
    | diverge => exact absurd ho hp2
    | err e =>
      refine ⟨ih1, by rw [List.map_cons, ih2], ?_⟩
      intro row hrow
      rcases List.mem_cons.mp hrow with rfl | hmem
      · exact ⟨rfl, rfl, err_row _ e ho⟩
      · exact ih3 row hmem
    | ok res =>
      refine ⟨ih1, by rw [List.map_cons, ih2], ?_⟩
      intro row hrow
      rcases List.mem_cons.mp hrow with rfl | hmem
      · exact ⟨rfl, rfl, ok_row _ res ho⟩
      · exact ih3 row hmem

/-- With the largest `int` as margin the test `i <= margin` holds for every value of `i`: when
every call of `PCurve` returns, the loop has not exited after any number of iterations, each
of which prints a row. -/
theorem searchLoop_maxInt (p : Nat) (a : Int) (start : List Nat)
    (h : ∀ j : Int, PCurve p a (addToSeed start j) ≠ .panic ∧
      PCurve p a (addToSeed start j) ≠ .diverge) (fuel : Nat) :
    ∀ i : Int, i ≤ 2 ^ 63 - 1 →
      (searchLoop p a start (2 ^ 63 - 1) fuel i).2 = .diverge ∧
      (searchLoop p a start (2 ^ 63 - 1) fuel i).1.length = fuel := by
  induction fuel with
  | zero => intro i _; exact ⟨rfl, rfl⟩
  | succ f ih =>
    intro i hi
    obtain ⟨ih1, ih2⟩ := ih (wrapInt (i + 1)) (wrapInt_le _)
    obtain ⟨hp1, hp2⟩ := h i
    rw [searchLoop_turn p a start _ f i hi]
    cases ho : PCurve p a (addToSeed start i) with
    | panic => exact absurd ho hp1
    | diverge => exact absurd ho hp2
    | err e => exact ⟨ih1, by rw [List.length_cons, ih2]⟩
    | ok res => exact ⟨ih1, by rw [List.length_cons, ih2]⟩

/-- The least `int` as margin: `-margin` wraps around to the margin itself and the loop runs
once. -/
theorem doSearch_minInt :
    (doSearch 29 2 [5] (-2 ^ 63)).1.map Row.offset = [-2 ^ 63] ∧
      (doSearch 29 2 [5] (-2 ^ 63)).2 = .retNil := by
  decide!

/-- C12 fails as stated: for `p = 0` (with `a = p - 3`, the start seed `01` and the margin 0)
the one call of `PCurve` panics at `w0[0]`, so no candidate is evaluated to the end and
`doSearch` does not return; for the prime `p = 2` (with `a = p - 3` and the start seed `03`,
where `r = 1`) the call panics in `ModSqrt`, whose `Jacobi` rejects an even modulus; and for
the margin `2^63 - 1`, the largest `int`, the test `i <= margin` never fails and `i++` wraps
around, so that (at `p = 29`, `a = 2`, the start seed `05`) the loop has not exited after any
number of iterations and `doSearch` does not return. -/
theorem C12_counterexample :
    doSearch 0 (-3) [1] 0 = ([], .panic) ∧ PCurve 0 (-3) (addToSeed [1] 0) = .panic ∧
      doSearch 2 (-1) [3] 0 = ([], .panic) ∧ expandR 2 (addToSeed [3] 0) = some 1 ∧
      PCurve 2 (-1) (addToSeed [3] 0) = .panic ∧
      (doSearch 29 2 [5] (2 ^ 63 - 1)).2 = .diverge ∧
      ∀ fuel : Nat,
        (searchLoop 29 2 [5] (2 ^ 63 - 1) fuel (wrapInt (-(2 ^ 63 - 1)))).2 = .diverge ∧
        (searchLoop 29 2 [5] (2 ^ 63 - 1) fuel (wrapInt (-(2 ^ 63 - 1)))).1.length = fuel :=
  ⟨by decide!, by decide!, by decide!, by decide!, by decide!,
    (searchLoop_maxInt 29 2 [5]
      (fun _ => PCurve_returns_of_prime (by norm_num) (by decide) 2 _) _ _ (wrapInt_le _)).1,
    fun fuel => searchLoop_maxInt 29 2 [5]
      (fun _ => PCurve_returns_of_prime (by norm_num) (by decide) 2 _) fuel _ (wrapInt_le _)⟩

/-- C12, amended: for a margin `m` with `0 ≤ m < 2^63 - 1` (below the largest `int`), whenever
none of the calls `PCurve(p, a, addToSeed(S, i))` for `-m ≤ i ≤ m` panics or runs forever,
`doSearch` evaluates exactly `2m+1` candidates, one per offset `i = -m, ..., m` in ascending
order, each computed from the start seed and `i` alone, marks the row of offset 0, prints the
error of each failing call and goes on, and returns nil. -/
theorem C12_doSearch_rows (p : Nat) (a : Int) (start : List Nat) (m : Int) (hm : 0 ≤ m)
    (hmax : m < 2 ^ 63 - 1)
    (hret : ∀ i : Int, -m ≤ i → i ≤ m → PCurve p a (addToSeed start i) ≠ .panic ∧
      PCurve p a (addToSeed start i) ≠ .diverge) :
    (doSearch p a start m).2 = .retNil ∧
      ((doSearch p a start m).1.length : Int) = 2 * m + 1 ∧
      (doSearch p a start m).1.map Row.offset =
        (List.range (2 * m + 1).toNat).map (fun (k : Nat) => -m + (k : Int)) ∧
      ∀ row ∈ (doSearch p a start m).1,
        (-m ≤ row.offset ∧ row.offset ≤ m) ∧
        row.seed = addToSeed start row.offset ∧ row.highlighted = (row.offset == 0) ∧
        (row.err = none ↔ ∃ res, PCurve p a row.seed = .ok res) ∧
        ∀ e, row.err = some e ↔ PCurve p a row.seed = .err e := by
  have hmax2 : m < 9223372036854775807 := by norm_num at hmax; exact hmax
  have hw : wrapInt (-m) = -m := wrapInt_of_range (by norm_num; omega) (by norm_num; omega)
  have hfuel : (2 * m + 1).toNat < 2 ^ 64 := by norm_num; omega
  obtain ⟨h1, h2, h3⟩ := searchLoop_of_returns p a start m hmax (2 * m + 1).toNat (2 ^ 64) (-m)
    (by norm_num; omega) (by omega) hfuel hret
  unfold doSearch
  rw [hw]
  refine ⟨h1, ?_, h2, ?_⟩
  · have hl := congrArg List.length h2
    rw [List.length_map, List.length_map, List.length_range] at hl
    rw [hl]
    omega
  · intro row hrow
    refine ⟨?_, h3 row hrow⟩
    have hmem : row.offset ∈ (List.range (2 * m + 1).toNat).map
        (fun (k : Nat) => -m + (k : Int)) := by
      rw [← h2]
      exact List.mem_map_of_mem _ hrow
    obtain ⟨k, hk, hke⟩ := List.mem_map.mp hmem
    rw [List.mem_range] at hk
    omega

/-- C12 amended, at `p = 29`, `a = 2`, the start seed `05` and the margin 2: five rows, for the
candidates `03` to `07`, two of them with a failing call, and `return nil`. -/
theorem C12_doSearch_rows_witness :
    doSearch 29 2 [5] 2 =
        ([⟨-2, [3], false, some .b⟩, ⟨-1, [4], false, none⟩, ⟨0, [5], true, none⟩,
          ⟨1, [6], false, none⟩, ⟨2, [7], false, some .b⟩], .retNil) ∧
      ((doSearch 29 2 [5] 2).1.length : Int) = 2 * 2 + 1 :=
  ⟨by decide!,
    (C12_doSearch_rows 29 2 [5] 2 (by decide) (by decide)
      (fun i _ _ => PCurve_returns_of_prime (by norm_num) (by decide) 2 _)).2.1⟩

end Seedsearch

/-! ## The expansion of the seed, block by block -/

namespace Generate
open Big

theorem shr_const (k : Nat) (h1 : 1 ≤ k) (h8 : k ≤ 8) : 0xFF >>> k = 2 ^ (8 - k) - 1 := by
  interval_cases k <;> rfl

theorem mul_add_mod_mul (b s M N : Nat) (hs : s < N) :
    (b * N + s) % (M * N) = (b % M) * N + s := by
  rcases Nat.eq_zero_or_pos M with rfl | hM
  · simp [Nat.mod_zero]
  have hlt : (b % M) * N + s < M * N := by
    have h1 : b % M < M := Nat.mod_lt _ hM
    have : (b % M + 1) * N ≤ M * N := Nat.mul_le_mul_right _ h1
    nlinarith
  have hsplit : b * N + s = (b % M) * N + s + (M * N) * (b / M) := by
    have h2 := Nat.div_add_mod b M
    calc b * N + s = (M * (b / M) + b % M) * N + s := by rw [h2]
      _ = _ := by ring
  rw [hsplit, Nat.add_mul_mod_self_left, Nat.mod_eq_of_lt hlt]

/-- C13: for a modulus of bit length at least 1 the masking loop turns the first byte `b` of
`w0` (the last `hBytes` bytes of the digest of the seed) into `b AND (0xFF >> k)`, with
`k = ((160 - hBits) mod 8) + 1`: the `k` most significant bits are cleared, every other bit keeps
its value and the other bytes are untouched, so that `w0` read as a big-endian integer is the
digest modulo `2^(8*hBytes - k) = 2^(hBits - 1)`. -/
theorem C13_masking_loop (p : Nat) (seed : List Nat) (hL : 1 ≤ BitLen p) :
    ∃ b rest w, sliceFrom (Sha1.Sum seed) (20 - hBytes p) = some (b :: rest) ∧
      w0 p seed = some w ∧
      (1 ≤ Int.tmod (160 - hBits p) 8 + 1 ∧ Int.tmod (160 - hBits p) 8 + 1 ≤ 8) ∧
      w = (b &&& (0xFF >>> (Int.tmod (160 - hBits p) 8 + 1).toNat)) :: rest ∧
      (∀ j : Nat, (w.headD 0).testBit j =
        if j < 8 - (Int.tmod (160 - hBits p) 8 + 1).toNat then b.testBit j else false) ∧
      8 * hBytes p - (Int.tmod (160 - hBits p) 8 + 1) = hBits p - 1 ∧
      SetBytes w = SetBytes (Sha1.Sum seed) % 2 ^ (8 * hBytes p -
        (Int.tmod (160 - hBits p) 8 + 1)).toNat ∧
      SetBytes w = SetBytes (Sha1.Sum seed) % 2 ^ (hBits p - 1).toNat := by
  have hB := hBytes_range hL
  have hb := hBits_range hL
  have hm := maskBound_range hL
  have hme := maskBound_eq hL
  have hBe := hBytes_eq hL
  obtain ⟨b, rest, hbr, hlen, hw⟩ := w0_spec hL seed
  obtain ⟨k, hk⟩ : ∃ k : Nat, Int.tmod (160 - hBits p) 8 + 1 = (k : Int) :=
    ⟨(Int.tmod (160 - hBits p) 8 + 1).toNat, by omega⟩
  have hk1 : 1 ≤ k := by omega
  have hk8 : k ≤ 8 := by omega
  have hexp : 7 - (8 * hBytes p - hBits p).toNat = 8 - k := by omega
  have hand : b &&& (0xFF >>> k) = b % 2 ^ (8 - k) := by
    rw [shr_const k hk1 hk8]
    exact Nat.and_pow_two_sub_one_eq_mod b (8 - k)
  have hslice : sliceFrom (Sha1.Sum seed) (20 - hBytes p) = some (b :: rest) := by
    unfold sliceFrom
    rw [if_pos ⟨by omega, by rw [Sha1.Sum_length]; omega⟩, hbr]
  have hbits : 8 * hBytes p - (Int.tmod (160 - hBits p) 8 + 1) = hBits p - 1 := by omega
  have hrest : SetBytes rest < 256 ^ rest.length := by
    apply SetBytes_lt
    intro c hc
    have : c ∈ Sha1.Sum seed := List.mem_of_mem_drop (hbr ▸ List.mem_cons_of_mem _ hc)
    exact Sha1.Sum_lt this
  have hmod : SetBytes ((b % 2 ^ (8 - k)) :: rest) =
      SetBytes (Sha1.Sum seed) % 2 ^ (hBits p - 1).toNat := by
    have hsplit : Sha1.Sum seed = (Sha1.Sum seed).take (20 - hBytes p).toNat ++ (b :: rest) := by
      rw [← hbr, List.take_append_drop]
    have he : (hBits p - 1).toNat = (8 - k) + 8 * rest.length := by omega
    have h256 : (256 : Nat) ^ rest.length = 2 ^ (8 * rest.length) := by
      rw [pow_mul]; norm_num
    have hpow : 2 ^ (hBits p - 1).toNat = 2 ^ (8 - k) * 256 ^ rest.length := by
      rw [he, pow_add, h256]
    have hdvd : 2 ^ (8 - k) * 256 ^ rest.length ∣ 256 ^ (b :: rest).length := by
      rw [List.length_cons, pow_succ, mul_comm ((256 : Nat) ^ rest.length) 256]
      apply Nat.mul_dvd_mul_right
      exact (Nat.pow_dvd_pow 2 (by omega : 8 - k ≤ 8)).trans (by norm_num)
    rw [hsplit, SetBytes_append, hpow]
    obtain ⟨c, hc⟩ := hdvd
    rw [hc, ← mul_assoc, mul_comm _ (2 ^ (8 - k) * 256 ^ rest.length), mul_assoc,
      Nat.mul_add_mod, SetBytes_cons, SetBytes_cons, mul_add_mod_mul _ _ _ _ hrest]
  rw [hk]
  simp only [Int.toNat_ofNat]
  refine ⟨b, rest, _, hslice, hw, ⟨by omega, by omega⟩, ?_, ?_, ?_, ?_, ?_⟩
  · rw [hexp, hand]
  · intro j
    rw [hexp]
    simp only [List.headD_cons, Nat.testBit_mod_two_pow]
    by_cases hj : j < 8 - k <;> simp [hj]
  · omega
  · rw [hexp, hmod]
    congr 2
    omega
  · rw [hexp, hmod]

/-- C13, at the modulus and the seed of the P-521 vector. -/
theorem C13_masking_loop_witness :
    1 ≤ BitLen pP521 ∧
      ∃ b rest w, sliceFrom (Sha1.Sum seedP521) (20 - hBytes pP521) = some (b :: rest) ∧
        w0 pP521 seedP521 = some w ∧ SetBytes w = SetBytes (Sha1.Sum seedP521) %
          2 ^ (hBits pP521 - 1).toNat :=
  ⟨by decide!, (C13_masking_loop pP521 seedP521 (by decide!)).imp fun _ h =>
    h.imp fun _ h => h.imp fun _ h => ⟨h.1, h.2.1, h.2.2.2.2.2.2.2⟩⟩

/-- The integer of a run of 20-byte blocks: block `i` of `s, ..., s+m-1` is shifted by 160 bits
for every block after it. -/
theorem SetBytes_flatten_blocks (f : Nat → List Nat) (hf : ∀ i, (f i).length = 20) (m s : Nat) :
    SetBytes ((List.range' s m).map f).flatten =
      ((List.range' s m).map (fun i => SetBytes (f i) * 2 ^ (160 * (s + m - 1 - i)))).sum := by
  induction m generalizing s with
  | zero => rfl
  | succ m ih =>
    have hlen : (List.map f (List.range' (s + 1) m)).flatten.length = 20 * m := by
      rw [length_flatten_of_forall (n := 20), List.length_map, List.length_range']
      intro x hx
      obtain ⟨i, -, rfl⟩ := List.mem_map.mp hx
      exact hf i
    have h256 : (256 : Nat) ^ (20 * m) = 2 ^ (160 * m) := by
      rw [show (256 : Nat) = 2 ^ 8 by norm_num, ← pow_mul]; congr 1; omega
    rw [List.range'_succ, List.map_cons, List.map_cons, List.flatten_cons, List.sum_cons,
      SetBytes_append, hlen, h256, ih (s + 1)]
    have e1 : s + (m + 1) - 1 - s = m := by omega
    rw [e1]
    congr 2
    apply List.map_congr_left
    intro i _
    have e2 : s + 1 + m - 1 - i = s + (m + 1) - 1 - i := by omega
    rw [e2]

/-- C14: for a modulus of bit length at least 1, `r` is the big-endian concatenation of the
blocks in order, `r = int(w0) * 2^(160*sCount) + sum_(i=1..sCount) int(W_i) * 2^(160*(sCount-i))`,
where `W_i` is the 20-byte digest of the minimal big-endian bytes of `int(seed) + i` and `w0` is
the masked first block. -/
theorem C14_r_is_concatenation (p : Nat) (seed : List Nat) (hL : 1 ≤ BitLen p) :
    ∃ w r, w0 p seed = some w ∧ rBuf p seed = some (w ++ (wBlocks p seed).flatten) ∧
      expandR p seed = some r ∧
      wBlocks p seed = (List.range' 1 (sCount p).toNat).map
        (fun i => Sha1.Sum (Bytes (SetBytes seed + i))) ∧
      (∀ i, (Sha1.Sum (Bytes (SetBytes seed + i))).length = 20) ∧
      r = SetBytes w * 2 ^ (160 * (sCount p).toNat) +
        ((List.range' 1 (sCount p).toNat).map (fun i =>
          SetBytes (Sha1.Sum (Bytes (SetBytes seed + i))) *
            2 ^ (160 * ((sCount p).toNat - i)))).sum := by
  obtain ⟨w, hw⟩ := Option.isSome_iff_exists.mp (w0_isSome hL seed)
  refine ⟨w, _, hw, rBuf_eq hw, expandR_eq hw, rfl, fun i => Sha1.Sum_length _, ?_⟩
  have h256 : (256 : Nat) ^ (20 * (sCount p).toNat) = 2 ^ (160 * (sCount p).toNat) := by
    rw [show (256 : Nat) = 2 ^ 8 by norm_num, ← pow_mul]; congr 1; omega
  rw [SetBytes_append, wBlocks_flatten_length, h256]
  congr 1
  unfold wBlocks
  rw [SetBytes_flatten_blocks _ (fun i => Sha1.Sum_length _)]
  congr 1
  apply List.map_congr_left
  intro i _
  have e : 1 + (sCount p).toNat - 1 - i = (sCount p).toNat - i := by omega
  rw [e]

/-- C14, at the modulus and the seed of the P-521 vector: three blocks follow `w0`. -/
theorem C14_r_is_concatenation_witness :
    1 ≤ BitLen pP521 ∧ (sCount pP521).toNat = 3 ∧
      ∃ w r, w0 pP521 seedP521 = some w ∧ expandR pP521 seedP521 = some r ∧
        r = SetBytes w * 2 ^ (160 * (sCount pP521).toNat) +
          ((List.range' 1 (sCount pP521).toNat).map (fun i =>
            SetBytes (Sha1.Sum (Bytes (SetBytes seedP521 + i))) *
              2 ^ (160 * ((sCount pP521).toNat - i)))).sum :=
  ⟨by decide!, by decide!, (C14_r_is_concatenation pP521 seedP521 (by decide!)).imp fun _ h =>
    h.imp fun _ h => ⟨h.1, h.2.2.1, h.2.2.2.2.2⟩⟩

theorem w0_zero (seed : List Nat) : w0 0 seed = none := by
  have hB : hBytes 0 = 0 := by decide
  have hb : Int.tmod (160 - hBits 0) 8 = 0 := by decide
  unfold w0 sliceFrom
  rw [hB, hb, if_pos ⟨by omega, by rw [Sha1.Sum_length]; omega⟩]
  have hd : (Sha1.Sum seed).drop (20 - 0 : Int).toNat = [] := by
    apply List.drop_eq_nil_of_le
    rw [Sha1.Sum_length]
    decide
  rw [hd]
  rfl

theorem w0_isSome_iff (p : Nat) (seed : List Nat) : (w0 p seed).isSome = true ↔ p ≠ 0 := by
  constructor
  · rintro h rfl
    rw [w0_zero] at h
    cases h
  · intro h
    exact w0_isSome (BitLen_pos h) seed

/-- The blocks after the first are the low `160*sCount` bits of `r`. -/
theorem expandR_mod (p : Nat) (seed : List Nat) :
    (expandR p seed).map (fun r => r % 2 ^ (160 * (sCount p).toNat)) =
      (w0 p seed).map (fun _ => SetBytes (wBlocks p seed).flatten) := by
  cases hw : w0 p seed with
  | none =>
    unfold expandR rBuf
    rw [hw]
    rfl
  | some w =>
    rw [expandR_eq hw, Option.map_some', Option.map_some', SetBytes_append,
      wBlocks_flatten_length]
    have h256 : (256 : Nat) ^ (20 * (sCount p).toNat) = 2 ^ (160 * (sCount p).toNat) := by
      rw [show (256 : Nat) = 2 ^ 8 by norm_num, ← pow_mul]; congr 1; omega
    have h2 : SetBytes (wBlocks p seed).flatten < 2 ^ (160 * (sCount p).toNat) := by
      have := SetBytes_lt (wBlocks p seed).flatten (fun c hc => wBlocks_flatten_lt hc)
      rwa [wBlocks_flatten_length, h256] at this
    rw [h256, Nat.mul_add_mod_of_lt h2]

/-- C15: the blocks `W_1, ..., W_sCount` depend on the seed only through its integer value,
and the first digest is taken of the exact seed bytes: for every seed `s`, every number `z` of
zero bytes put in front and every `p`, the hash input of block `i` is the same minimal encoding
of `int(s) + i` (not padded to the length of the seed), the blocks after the first agree, and
`r(s) mod 2^(160*sCount) = r(00..00||s) mod 2^(160*sCount)`, while `sha1(00||01)` and `sha1(01)`
differ. -/
theorem C15_blocks_by_integer_value (p : Nat) (s : List Nat) (z : Nat) :
    (∀ i : Nat, Bytes (SetBytes (List.replicate z 0 ++ s) + i) = Bytes (SetBytes s + i)) ∧
      wBlocks p (List.replicate z 0 ++ s) = wBlocks p s ∧
      (digests p (List.replicate z 0 ++ s)).tail = (digests p s).tail ∧
      (digests p (List.replicate z 0 ++ s)).head? = some (Sha1.Sum (List.replicate z 0 ++ s)) ∧
      (expandR p (List.replicate z 0 ++ s)).map (fun r => r % 2 ^ (160 * (sCount p).toNat)) =
        (expandR p s).map (fun r => r % 2 ^ (160 * (sCount p).toNat)) ∧
      ((expandR p (List.replicate z 0 ++ s)).isSome = (expandR p s).isSome) ∧
      Sha1.Sum (List.replicate 1 0 ++ [1]) ≠ Sha1.Sum [1] := by
  have hS : SetBytes (List.replicate z 0 ++ s) = SetBytes s := SetBytes_replicate_zero_append z s
  have hW : wBlocks p (List.replicate z 0 ++ s) = wBlocks p s := by
    unfold wBlocks
    rw [hS]
  have hsome : (w0 p (List.replicate z 0 ++ s)).isSome = (w0 p s).isSome := by
    rw [Bool.eq_iff_iff, w0_isSome_iff, w0_isSome_iff]
  refine ⟨fun i => by rw [hS], hW, hW, rfl, ?_, ?_, by decide!⟩
  · rw [expandR_mod, expandR_mod, hW]
    cases h1 : w0 p (List.replicate z 0 ++ s) <;> cases h2 : w0 p s <;>
      rw [h1, h2] at hsome <;> first | rfl | cases hsome
  · have e1 := congrArg Option.isSome (expandR_mod p (List.replicate z 0 ++ s))
    have e2 := congrArg Option.isSome (expandR_mod p s)
    rw [Option.isSome_map', Option.isSome_map'] at e1 e2
    rw [e1, e2, hsome]

/-- C16: for a modulus `p ≥ 1` of bit length `L` the expanded value satisfies
`r < 2^(L-1) ≤ p`, so `0 ≤ r < p`, `r mod p = r` and the bit length of `r` is at most `L - 1`. -/
theorem C16_r_below_modulus (p : Nat) (seed : List Nat) (hp : 1 ≤ p) :
    ∃ r : Nat, expandR p seed = some r ∧ r < 2 ^ (BitLen p - 1) ∧ 2 ^ (BitLen p - 1) ≤ p ∧
      (0 ≤ (r : Int) ∧ r < p) ∧ r % p = r ∧ BitLen r ≤ BitLen p - 1 := by
  have hp0 : p ≠ 0 := by omega
  obtain ⟨r, hr, hrp⟩ := exists_expandR hp0 seed
  have hlt := expandR_lt (BitLen_pos hp0) hr
  exact ⟨r, hr, hlt, two_pow_BitLen_le hp0, ⟨Int.natCast_nonneg r, hrp⟩, Nat.mod_eq_of_lt hrp,
    (BitLen_le_iff r _).mpr hlt⟩

/-- C16, at the modulus and the seed of the P-192 vector. -/
theorem C16_r_below_modulus_witness :
    1 ≤ pP192 ∧ ∃ r : Nat, expandR pP192 seedP192 = some r ∧ r < pP192 ∧
      BitLen r ≤ BitLen pP192 - 1 :=
  ⟨by decide, (C16_r_below_modulus pP192 seedP192 (by decide)).imp fun _ h =>
    ⟨h.1, h.2.2.2.1.2, h.2.2.2.2.2⟩⟩

end Generate

/-! ## The roots, the errors and the role of `a` -/

namespace Generate
open Big

/-- Below a prime `p` only 0 is not coprime to `p`. -/
theorem gcd_ne_one_iff_of_lt {p r : Nat} (hp : p.Prime) (hr : r < p) :
    Nat.gcd r p ≠ 1 ↔ r = 0 := by
  constructor
  · intro h
    by_contra h0
    apply h
    have hnd : ¬ p ∣ r := Nat.not_dvd_of_pos_of_lt (Nat.pos_of_ne_zero h0) hr
    exact Nat.Coprime.symm ((Nat.Prime.coprime_iff_not_dvd hp).mpr hnd)
  · rintro rfl
    rw [Nat.gcd_zero_left]
    exact hp.one_lt.ne'

/-- The value `check` of `PCurve`, in the field `ZMod p`. -/
theorem check_eq_zero_iff {p : Nat} [hp : Fact p.Prime] (a : Int) {r rinv : Nat}
    (hinv : ModInverse r p = some rinv) :
    (a ^ 3 % (p : Int) * 4 + (a ^ 3 % (p : Int) * (rinv : Int)) % (p : Int) * 27) % (p : Int) = 0 ↔
      (p : Int) ∣ a ∨ (p : Int) ∣ 4 * (r : Int) + 27 := by
  have hg : Nat.gcd r p = 1 := by
    by_contra hc
    rw [(ModInverse_eq_none_iff r p).mpr hc] at hinv
    cases hinv
  have hr0 : (r : ZMod p) ≠ 0 := natCast_ne_zero_of_gcd hg
  rw [emod_eq_zero_iff_cast, ← ZMod.intCast_zmod_eq_zero_iff_dvd,
    ← ZMod.intCast_zmod_eq_zero_iff_dvd]
  simp only [Int.cast_add, Int.cast_mul, ZMod.intCast_mod, Int.cast_pow, Int.cast_natCast,
    Int.cast_ofNat, cast_rinv hinv]
  have hfac : (a : ZMod p) ^ 3 * 4 + (a : ZMod p) ^ 3 * (r : ZMod p)⁻¹ * 27 =
      (a : ZMod p) ^ 3 * (r : ZMod p)⁻¹ * (4 * (r : ZMod p) + 27) := by
    field_simp
    ring
  rw [hfac]
  constructor
  · intro h
    rcases mul_eq_zero.mp h with h1 | h1
    · rcases mul_eq_zero.mp h1 with h2 | h2
      · exact Or.inl (pow_eq_zero_iff (by norm_num) |>.mp h2)
      · exact absurd (inv_eq_zero.mp h2) hr0
    · exact Or.inr h1
  · rintro (h | h)
    · rw [h]; ring
    · rw [h]; ring

/-- After the inverse of `r`, `PCurve` returns the singular-curve error exactly when `ModSqrt`
finds a root and the value `check` is 0. -/
theorem PCurve_singular_iff {p : Nat} (hp : 0 < p) (a : Int) {seed : List Nat} {r rinv : Nat}
    (hr : expandR p seed = some r) (hinv : ModInverse r p = some rinv) :
    PCurve p a seed = .err .singular ↔
      (a ^ 3 % (p : Int) * 4 + (a ^ 3 % (p : Int) * (rinv : Int)) % (p : Int) * 27)
        % (p : Int) = 0 ∧
      ∃ z, ModSqrt ((a ^ 3 % (p : Int) * (rinv : Int)) % (p : Int)).toNat p = .root z := by
  rw [PCurve_eval hp a hr, hinv]
  simp only []
  cases ModSqrt ((a ^ 3 % (p : Int) * (rinv : Int)) % (p : Int)).toNat p with
  | null => simp
  | panic => simp
  | diverge => simp
  | root z =>
    simp only []
    by_cases hc : (a ^ 3 % (p : Int) * 4 + (a ^ 3 % (p : Int) * (rinv : Int)) % (p : Int) * 27)
        % (p : Int) = 0
    · rw [if_pos hc]
      simp [hc]
    · rw [if_neg hc]
      simp [hc]

/-- A successful call has a non-zero value `check`. -/
theorem PCurve_ok_check {p : Nat} (hp : 0 < p) {a : Int} {seed : List Nat} {r rinv : Nat}
    {res : Result} (hr : expandR p seed = some r) (hinv : ModInverse r p = some rinv)
    (h : PCurve p a seed = .ok res) :
    (a ^ 3 % (p : Int) * 4 + (a ^ 3 % (p : Int) * (rinv : Int)) % (p : Int) * 27)
      % (p : Int) ≠ 0 := by
  rw [PCurve_eval hp a hr, hinv] at h
  simp only [] at h
  intro hc
  cases hs : ModSqrt ((a ^ 3 % (p : Int) * (rinv : Int)) % (p : Int)).toNat p with
  | null => rw [hs] at h; cases h
  | panic => rw [hs] at h; cases h
  | diverge => rw [hs] at h; cases h
  | root z =>
    rw [hs] at h
    simp only [] at h
    rw [if_pos hc] at h
    cases h

/-- The outcome of `PCurve` is a function of `a mod p`. -/
theorem PCurve_congr {p : Nat} (hp : 0 < p) (seed : List Nat) {a a' : Int}
    (h : a % (p : Int) = a' % (p : Int)) : PCurve p a seed = PCurve p a' seed := by
  have h3 : a ^ 3 % (p : Int) = a' ^ 3 % (p : Int) := Int.ModEq.pow 3 h
  unfold PCurve
  rw [Exp_three a hp, Exp_three a' hp, h3]

/-- C17: on a prime modulus `p` (a success implies that `p` is odd) the roots of a successful
`PCurve(p, a, seed)` are non-zero reduced residues and differ: `1 ≤ B1 ≤ p - 1`,
`1 ≤ B2 ≤ p - 1` and `B1 ≠ B2`; a zero root would make the discriminant test fail. -/
theorem C17_roots_nonzero_distinct (p : Nat) (hp : p.Prime) (a : Int) (seed : List Nat)
    (res : Result) (h : PCurve p a seed = .ok res) :
    p % 2 = 1 ∧ (1 ≤ res.B1 ∧ res.B1 ≤ (p : Int) - 1) ∧
      (1 ≤ res.B2 ∧ res.B2 ≤ (p : Int) - 1) ∧ res.B1 ≠ res.B2 := by
  haveI : Fact p.Prime := ⟨hp⟩
  have hodd := PCurve_ok_odd h
  obtain ⟨r, z, -, hr0, hz, hz2, hd, rfl⟩ := PCurve_ok_prime h
  have hz0 : z ≠ 0 := by
    rintro rfl
    apply hd
    rw [Nat.cast_zero, zero_pow (by norm_num)] at hz2
    rw [← hz2, mul_zero, add_zero]
    rcases mul_eq_zero.mp hz2.symm with h1 | h1
    · rw [h1, mul_zero]
    · exact absurd (inv_eq_zero.mp h1) hr0
  refine ⟨hodd, ⟨?_, ?_⟩, ⟨?_, ?_⟩, ?_⟩
  · show (1 : Int) ≤ (z : Int)
    omega
  · show (z : Int) ≤ (p : Int) - 1
    omega
  · show (1 : Int) ≤ (p : Int) - (z : Int)
    omega
  · show (p : Int) - (z : Int) ≤ (p : Int) - 1
    omega
  · show (z : Int) ≠ (p : Int) - (z : Int)
    omega

/-- C17, at `p = 29`, `a = 2` and the one-byte seed `05`, with the roots 8 and 21. -/
theorem C17_roots_nonzero_distinct_witness :
    PCurve 29 2 [5] = .ok ⟨11, 8, 21⟩ ∧ ((1 : Int) ≤ 8 ∧ (8 : Int) ≤ 29 - 1) ∧
      ((1 : Int) ≤ 21 ∧ (21 : Int) ≤ 29 - 1) ∧ (8 : Int) ≠ 21 :=
  ⟨by decide!,
    (C17_roots_nonzero_distinct 29 (by norm_num) 2 [5] ⟨11, 8, 21⟩ (by decide!)).2⟩

/-- C18: on a prime modulus `p`, `PCurve(p, a, seed)` returns the error
"error computing r-inverse" if and only if the expanded value `r` is 0; `r` always exists and
lies below `p`. -/
theorem C18_rinv_error_iff_r_zero (p : Nat) (hp : p.Prime) (a : Int) (seed : List Nat) :
    ∃ r : Nat, expandR p seed = some r ∧ r < p ∧
      (r ≠ 0 → Nat.gcd r p = 1) ∧
      (PCurve p a seed = .err .rinv ↔ r = 0) ∧
      BadSeed.message .rinv = "bad seed: error computing r-inverse" := by
  obtain ⟨r, hr, hrp⟩ := exists_expandR hp.pos.ne' seed
  have hg := gcd_ne_one_iff_of_lt hp hrp
  refine ⟨r, hr, hrp, fun h0 => by_contra fun hc => h0 (hg.mp hc), ?_, by decide⟩
  rw [PCurve_eval hp.pos a hr]
  cases hi : ModInverse r p with
  | none =>
    have := (ModInverse_eq_none_iff r p).mp hi
    exact ⟨fun _ => hg.mp this, fun _ => rfl⟩
  | some rinv =>
    have hne : r ≠ 0 := by
      intro h0
      rw [(ModInverse_eq_none_iff r p).mpr (hg.mpr h0)] at hi
      cases hi
    simp only []
    constructor
    · intro h
      exfalso
      cases hs : ModSqrt ((a ^ 3 % (p : Int) * (rinv : Int)) % (p : Int)).toNat p with
      | null => rw [hs] at h; cases h
      | panic => rw [hs] at h; cases h
      | diverge => rw [hs] at h; cases h
      | root z =>
        rw [hs] at h
        simp only [] at h
        split at h <;> cases h
    · intro h
      exact absurd h hne

/-- C18, at `p = 29` and the one-byte seed `04`, where `r` is not 0. -/
theorem C18_rinv_error_iff_r_zero_witness :
    Nat.Prime 29 ∧ expandR 29 [4] ≠ some 0 ∧ PCurve 29 2 [4] ≠ .err .rinv ∧
      ∃ r : Nat, expandR 29 [4] = some r ∧ (PCurve 29 2 [4] = .err .rinv ↔ r = 0) :=
  ⟨by norm_num, by decide!, by decide!,
    (C18_rinv_error_iff_r_zero 29 (by norm_num) 2 [4]).imp fun _ h => ⟨h.1, h.2.2.2.1⟩⟩

/-- C19 fails as stated: for `p = 7` and the one-byte seed `02`, where `r = 2` is invertible
and `7` divides `4*r + 27`, the coefficients `a = 2` and `a = 3` are both non-zero modulo 7,
yet `a = 2` ends in the singular-curve error and `a = 3` ends in "error computing b". -/
theorem C19_counterexample :
    expandR 7 [2] = some 2 ∧ ModInverse 2 7 = some 4 ∧ (2 : Int) % 7 ≠ 0 ∧ (3 : Int) % 7 ≠ 0 ∧
      PCurve 7 2 [2] = .err .singular ∧ PCurve 7 3 [2] = .err .b := by
  decide!

/-- C19, amended: for a prime `p` and a seed whose `r` has the inverse `rinv` modulo `p`, the
value `check = (4*a3 + 27*b2) mod p` that `PCurve` tests, with `b2 = a3*rinv mod p`, is 0 if and
only if `p` divides `a` or `p` divides `4*r + 27`; `PCurve` never succeeds when `p` divides `a`;
for `a` and `a2` not divisible by `p` the value tested for `a` is 0 exactly when the value tested
for `a2` is; and the singular-curve error is returned exactly when the value is 0 and `ModSqrt`
finds a root of `b2`. -/
theorem C19_discriminant_test (p : Nat) (hp : p.Prime) (a a2 : Int) (seed : List Nat)
    (r rinv : Nat) (a3 b2 c3 d2 : Int)
    (hr : expandR p seed = some r) (hinv : ModInverse r p = some rinv)
    (ha3 : Exp a 3 p = some a3) (hb2 : Big.Mod (a3 * (rinv : Int)) p = some b2)
    (hc3 : Exp a2 3 p = some c3) (hd2 : Big.Mod (c3 * (rinv : Int)) p = some d2) :
    ((a3 * 4 + b2 * 27) % (p : Int) = 0 ↔ (p : Int) ∣ a ∨ (p : Int) ∣ 4 * (r : Int) + 27) ∧
      ((p : Int) ∣ a → ∀ res, PCurve p a seed ≠ .ok res) ∧
      (¬ (p : Int) ∣ a → ¬ (p : Int) ∣ a2 →
        ((a3 * 4 + b2 * 27) % (p : Int) = 0 ↔ (c3 * 4 + d2 * 27) % (p : Int) = 0)) ∧
      (PCurve p a seed = .err .singular ↔
        (a3 * 4 + b2 * 27) % (p : Int) = 0 ∧ ∃ z, ModSqrt b2.toNat p = .root z) := by
  haveI : Fact p.Prime := ⟨hp⟩
  rw [Exp_three a hp.pos] at ha3
  rw [Exp_three a2 hp.pos] at hc3
  cases ha3
  cases hc3
  simp only [Big.Mod] at hb2 hd2
  cases hb2
  cases hd2
  have h1 := check_eq_zero_iff a hinv
  have h2 := check_eq_zero_iff a2 hinv
  refine ⟨h1, ?_, ?_, PCurve_singular_iff hp.pos a hr hinv⟩
  · intro hdvd res hok
    exact PCurve_ok_check hp.pos hr hinv hok (h1.mpr (Or.inl hdvd))
  · intro hna hna2
    rw [h1, h2]
    constructor
    · rintro (h | h)
      · exact absurd h hna
      · exact Or.inr h
    · rintro (h | h)
      · exact absurd h hna2
      · exact Or.inr h

/-- C19 amended, at `p = 7`, the one-byte seed `02` and `a = 2`, `a2 = 3`: the tested value is
0 for both. -/
theorem C19_discriminant_test_witness :
    Nat.Prime 7 ∧ expandR 7 [2] = some 2 ∧ ModInverse 2 7 = some 4 ∧
      Exp 2 3 7 = some 1 ∧ Big.Mod (1 * ((4 : Nat) : Int)) 7 = some 4 ∧
      Exp 3 3 7 = some 6 ∧ Big.Mod (6 * ((4 : Nat) : Int)) 7 = some 3 ∧
      (((1 : Int) * 4 + 4 * 27) % ((7 : Nat) : Int) = 0 ↔
        ((7 : Nat) : Int) ∣ 2 ∨ ((7 : Nat) : Int) ∣ 4 * ((2 : Nat) : Int) + 27) :=
  ⟨by norm_num, by decide!, by decide!, by decide!, by decide!, by decide!, by decide!,
    (C19_discriminant_test 7 (by norm_num) 2 3 [2] 2 4 1 4 6 3 (by decide!) (by decide!)
      (by decide!) (by decide!) (by decide!) (by decide!)).1⟩

/-- C20: for a modulus `p ≥ 1`, `PCurve` depends on `a` only through `a mod p`: if
`a ≡ a2 (mod p)` then `PCurve(p, a, seed)` and `PCurve(p, a2, seed)` have the same outcome, the
same failure or the same `R`, `B1` and `B2`, and `PCurve(p, a, seed) = PCurve(p, a mod p, seed)`. -/
theorem C20_a_only_modulo_p (p : Nat) (hp : 1 ≤ p) (seed : List Nat) (a a2 : Int)
    (h : a % (p : Int) = a2 % (p : Int)) :
    PCurve p a seed = PCurve p a2 seed ∧ PCurve p a seed = PCurve p (a % (p : Int)) seed :=
  ⟨PCurve_congr hp seed h, PCurve_congr hp seed (Int.emod_emod_of_dvd a (dvd_refl _)).symm⟩

/-- C20, at `p = 29`, the one-byte seed `05` and `a = 2`, `a2 = -27`. -/
theorem C20_a_only_modulo_p_witness :
    (2 : Int) % ((29 : Nat) : Int) = (-27) % ((29 : Nat) : Int) ∧
      PCurve 29 (-27) [5] = .ok ⟨11, 8, 21⟩ ∧ PCurve 29 2 [5] = PCurve 29 (-27) [5] :=
  ⟨by decide, by decide!, (C20_a_only_modulo_p 29 (by decide) [5] 2 (-27) (by decide)).1⟩

end Generate
